import Mathlib

/-!
# Reply errors of the teleport RPC framework (`rerror.go`)

A shallow embedding of `rerror.go`: the `Rerror` record, its hand-written JSON
encoder, the path-based decoder, the metadata bridge and the alias with Go's
`error` interface.

Conventions of the embedding.

* Go `string` and `[]byte` values hold text; both are modelled as `Bytes`, the
  sequence of characters of that text.  `goutil.BytesToString` and
  `goutil.StringToBytes` are zero-copy casts and become the identity.
* `int32` and `int64` are `Int`; the one narrowing conversion of the file,
  `int32(...)` in `UnmarshalJSON`, wraps explicitly.
* A `*Rerror` receiver that is only read is modelled by `Option Rerror`
  (`none` is the nil pointer).  Functions whose result depends on the identity
  of a pointer (`Copy`, `SetReason`, `ToError`, `ToRerror`) work on an explicit
  heap of `Rerror` cells.
* A Go `error` result is `Option GoError`; `none` is the nil error.
-/

namespace Tp

/-- Text held in a Go `string` or `[]byte`. -/
abbrev Bytes := List Char

/-- The struct `Content`. -/
structure Content where
  Reason : Bytes
deriving DecidableEq, Repr

/-- The struct `Rerror`. -/
structure Rerror where
  ErrorCode : Int
  ErrorMsg : Bytes
  Data : Content
deriving DecidableEq, Repr

/-- The package variable `reA`. -/
def reA : Bytes := "\x7b\"error_code\":".toList

/-- The package variable `reB`. -/
def reB : Bytes := ",\"error_msg\":".toList

/-- The package variable `reC`; the source writes the key `reason` without
quotes. -/
def reC : Bytes := ",\"data\":\x7breason:".toList

/-- The package variable `reD`. -/
def reD : Bytes := ",\"data\":\x7b\x7d".toList

/-- The call `strconv.FormatInt(i, 10)` of the Go standard library: a minus sign for
a negative number, then the decimal digits of the magnitude. -/
def FormatInt (i : Int) : Bytes :=
  if i < 0 then '-' :: Nat.toDigits 10 i.natAbs else Nat.toDigits 10 i.toNat

/-- Lower-case hexadecimal digit of a number below 16. -/
def hexDigit (n : Nat) : Char := Nat.digitChar n

/-- Modelled from the spec: the escaping of one character by the Escaper of
section 4.1 (`utils.ToJsonStr` is not among the sources).  The quote, the
backslash and the control characters below 0x20 are escaped, with the short
escape where JSON defines one and `\u00XX` otherwise; every other character is
copied. -/
def escapeChar (c : Char) : Bytes :=
  if c = '"' then ['\\', '"']
  else if c = '\\' then ['\\', '\\']
  else if c = '\n' then ['\\', 'n']
  else if c = '\r' then ['\\', 'r']
  else if c = '\t' then ['\\', 't']
  else if c = Char.ofNat 8 then ['\\', 'b']
  else if c = Char.ofNat 12 then ['\\', 'f']
  else if c.toNat < 32 then
    ['\\', 'u', '0', '0', hexDigit (c.toNat / 16), hexDigit (c.toNat % 16)]
  else [c]

/-- Modelled from the spec: `utils.ToJsonStr(s, false)`, the Escaper of section 4.1
as `MarshalJSON` uses it: the escaped body between two double quotes. -/
def ToJsonStr (s : Bytes) : Bytes :=
  '"' :: (s.flatMap escapeChar ++ ['"'])

/-- Go's `error` interface values that `rerror.go` distinguishes: a `*rerror`
(possibly a nil pointer of that type, holding the address of a `Rerror` cell
otherwise) and an error of any other dynamic type, known by the text its
`Error()` method returns.  The nil interface value is `none : Option GoError`. -/
inductive GoError where
  | rerror (p : Option Nat)
  | other (text : Bytes)
deriving DecidableEq, Repr

/-- The method `(*Rerror).MarshalJSON`. -/
def MarshalJSON (r : Option Rerror) : Bytes × Option GoError :=
  match r with
  | none => ([], none)
  | some r =>
    let b := reA ++ FormatInt r.ErrorCode
    let b := if r.ErrorMsg.length > 0 then (b ++ reB) ++ ToJsonStr r.ErrorMsg else b
    let b :=
      if r.Data.Reason.length > 0 then ((b ++ reC) ++ ToJsonStr r.Data.Reason) ++ ['}']
      else b ++ reD
    (b ++ ['}'], none)

/-- The function `NewRerror`, as the value of the record it allocates. -/
def NewRerror (code : Int) (message reason : Bytes) : Rerror :=
  { ErrorCode := code, ErrorMsg := message, Data := { Reason := reason } }

/-- The conversion `int32(x)` of an `int64`: the value wrapped into `-2^31 .. 2^31-1`. -/
def int32 (x : Int) : Int := (x + 2147483648) % 4294967296 - 2147483648

/-- The two accessors `rerror.go` calls on a `gjson.Result`: `Int()` and
`String()`. -/
structure Result where
  Int : Int
  String : Bytes
deriving DecidableEq, Repr

/-- The expression `new(Rerror)`: the zero value of the record. -/
def newRerror : Rerror := { ErrorCode := 0, ErrorMsg := [], Data := { Reason := [] } }

/-- The method `(*Rerror).UnmarshalJSON`.  The path getter `gjson.Get` belongs to a
library outside the repository and is the parameter `Get`.  The result is the
receiver after the call and the returned error. -/
def UnmarshalJSON (Get : Bytes → Bytes → Result) (r : Option Rerror) (b : Bytes) :
    Option Rerror × Option GoError :=
  match r with
  | none => (none, none)
  | some r =>
    let s := b
    let r := { r with ErrorCode := int32 (Get s "error_code".toList).Int }
    let r := { r with ErrorMsg := (Get s "error_msg".toList).String }
    let r := { r with Data := { r.Data with Reason := (Get s "data.reason".toList).String } }
    (some r, none)

/-- Modelled from the spec: the metadata store `utils.Args`, which is not among the
sources.  Section 1 describes it as a case-sensitive multi-map with byte-slice
values; it is a list of key/value entries in insertion order. -/
structure Args where
  args : List (Bytes × Bytes)
deriving DecidableEq, Repr

/-- Modelled from the spec: `peek(key) -> bytes|empty` of section 6, the value of
the first entry under the key and the empty byte sequence when there is none. -/
def Args.Peek (a : Args) (key : Bytes) : Bytes :=
  match a.args.find? (fun kv => kv.1 == key) with
  | some kv => kv.2
  | none => []

/-- Modelled from the spec: `has(key) -> bool` of section 6, whether an entry
exists under the key. -/
def Args.Has (a : Args) (key : Bytes) : Bool :=
  a.args.any (fun kv => kv.1 == key)

/-- Entry list of `Args.Set`: the first entry under the key gets the new value,
and a new entry is appended when the key has none. -/
def setArg : List (Bytes × Bytes) → Bytes → Bytes → List (Bytes × Bytes)
  | [], key, value => [(key, value)]
  | kv :: rest, key, value =>
    if kv.1 = key then (key, value) :: rest else kv :: setArg rest key value

/-- Modelled from the spec: `set(key, bytes)` of section 6, which overwrites any
prior value under the key. -/
def Args.Set (a : Args) (key value : Bytes) : Args :=
  { args := setArg a.args key value }

/-- Modelled from the spec: the reserved metadata key; the constant `MetaRerror` is
declared outside `rerror.go`, whose comments give its text. -/
def MetaRerror : Bytes := "X-Reply-Error".toList

/-- The function `NewRerrorFromMeta`: the record behind the returned pointer (`none`
for nil), and the store after the call. -/
def NewRerrorFromMeta (Get : Bytes → Bytes → Result) (meta : Args) : Option Rerror × Args :=
  let b := meta.Peek MetaRerror
  if b.length = 0 then (none, meta)
  else
    let r := newRerror
    ((UnmarshalJSON Get (some r) b).1, meta)

/-- The method `(*Rerror).SetToMeta`: the store after the call. -/
def SetToMeta (r : Option Rerror) (meta : Args) : Args :=
  let b := (MarshalJSON r).1
  if b.length = 0 then meta
  else meta.Set MetaRerror b

/-- The function `hasRerror`. -/
def hasRerror (meta : Args) : Bool := meta.Has MetaRerror

/-- The function `getRerrorBytes`. -/
def getRerrorBytes (meta : Args) : Bytes := meta.Peek MetaRerror

/-- The allocated `Rerror` cells; a non-nil `*Rerror` is the index of its cell. -/
abbrev Heap := List Rerror

/-- The method `(Rerror).Copy`: the value receiver is a copy of the caller's record,
and `&r` is the address of a new cell holding it. -/
def Copy (h : Heap) (r : Rerror) : Heap × Nat := (h ++ [r], h.length)

/-- The method `(*Rerror).SetReason`; `none` is the panic of a nil or dangling
receiver. -/
def SetReason (h : Heap) (r : Option Nat) (reason : Bytes) : Option (Heap × Option Nat) :=
  match r with
  | none => none
  | some p =>
    match h[p]? with
    | none => none
    | some v => some (h.set p { v with Data := { v.Data with Reason := reason } }, some p)

/-- The method `(*Rerror).ToError`. -/
def ToError (r : Option Nat) : Option GoError :=
  match r with
  | none => none
  | some p => some (GoError.rerror (some p))

/-- The method `(*rerror).toRerror`: the same address, read at the other type. -/
def toRerror (r : Option Nat) : Option Nat := r

/-- The method `error.Error()` of an error of a dynamic type other than `*rerror`,
and of a `*rerror` over the heap. -/
def GoError.Error (h : Heap) : GoError → Bytes
  | GoError.other text => text
  | GoError.rerror p => (MarshalJSON ((toRerror p).bind (fun a => h[a]?))).1

/-- The function `ToRerror`.  The package variable `rerrUnknownError` is declared
outside `rerror.go` and is a parameter, a `*Rerror`.  The result is the heap
after the call and the returned pointer; `none` is a panic (a nil or dangling
`rerrUnknownError`). -/
def ToRerror (h : Heap) (rerrUnknownError : Option Nat) (err : Option GoError) :
    Option (Heap × Option Nat) :=
  match err with
  | none => some (h, none)
  | some (GoError.rerror r) => some (h, toRerror r)
  | some (GoError.other text) =>
    match rerrUnknownError.bind (fun a => h[a]?) with
    | none => none
    | some v =>
      let (h1, p) := Copy h v
      SetReason h1 (some p) (GoError.Error h1 (GoError.other text))

/-- The method `(*Rerror).SetMessage`; `none` is the panic of a nil or dangling
receiver. -/
def SetMessage (h : Heap) (r : Option Nat) (message : Bytes) : Option (Heap × Option Nat) :=
  match r with
  | none => none
  | some p =>
    match h[p]? with
    | none => none
    | some v => some (h.set p { v with ErrorMsg := message }, some p)

/-- The function `NewRerror` over the heap: `&Rerror{...}` is the address of a new
cell that holds the record. -/
def NewRerrorOn (h : Heap) (code : Int) (message reason : Bytes) : Heap × Option Nat :=
  (h ++ [{ ErrorCode := code, ErrorMsg := message, Data := { Reason := reason } }],
    some h.length)

/-- The method `(*Rerror).String`. -/
def Rerror.String (r : Option Rerror) : Bytes :=
  match r with
  | none => "<nil>".toList
  | some v =>
    let b := (MarshalJSON (some v)).1
    b

/-! ## Well-formed JSON text (RFC 8259)

The grammar against which the encoder's output is judged: a recogniser that
returns the input left after one syntactic element, or `none` when the input
does not start with one. -/

/-- JSON whitespace: space, tab, line feed, carriage return. -/
def isWs (c : Char) : Bool := c = ' ' || c = '\t' || c = '\n' || c = '\r'

/-- Input after leading JSON whitespace. -/
def skipWs (s : Bytes) : Bytes := s.dropWhile isWs

/-- Hexadecimal digit, either case. -/
def isHex (c : Char) : Bool :=
  c.isDigit || ('a' ≤ c && c ≤ 'f') || ('A' ≤ c && c ≤ 'F')

/-- Whether a character may follow a backslash in a string literal, `u` apart. -/
def isShortEscape (e : Char) : Bool :=
  e = '"' || e = '\\' || e = '/' || e = 'b' || e = 'f' || e = 'n' || e = 'r' || e = 't'

/-- Rest of the input after the body and closing quote of a JSON string literal
whose opening quote has been read.  The first argument is the position inside
an escape: 0 outside one, 1 after the backslash, and `k + 1` when `k` of the
four hexadecimal digits of a `\u` escape are still to come. -/
def jsonString : Nat → Bytes → Option Bytes
  | _, [] => none
  | 0, c :: rest =>
    if c = '"' then some rest
    else if c = '\\' then jsonString 1 rest
    else if c.toNat < 32 then none
    else jsonString 0 rest
  | 1, c :: rest =>
    if c = 'u' then jsonString 5 rest
    else if isShortEscape c then jsonString 0 rest
    else none
  | k + 2, c :: rest =>
    if isHex c then jsonString (if k = 0 then 0 else k + 1) rest else none

/-- Rest of the input after at least one decimal digit. -/
def jsonDigits : Bytes → Option Bytes
  | [] => none
  | c :: rest => if c.isDigit then some (rest.dropWhile Char.isDigit) else none

/-- Rest of the input after an optional exponent. -/
def jsonExp : Bytes → Option Bytes
  | [] => some []
  | c :: rest =>
    if c = 'e' || c = 'E' then
      match rest with
      | [] => none
      | d :: rest1 => if d = '+' || d = '-' then jsonDigits rest1 else jsonDigits rest
    else some (c :: rest)

/-- Rest of the input after an optional fraction and an optional exponent. -/
def jsonFracExp : Bytes → Option Bytes
  | [] => some []
  | c :: rest =>
    if c = '.' then
      match jsonDigits rest with
      | none => none
      | some r => jsonExp r
    else jsonExp (c :: rest)

/-- Rest of the input after the integer part (no leading zero), fraction and
exponent of a JSON number whose optional minus sign has been read. -/
def jsonUnsigned : Bytes → Option Bytes
  | [] => none
  | c :: rest =>
    if c = '0' then jsonFracExp rest
    else if c.isDigit then jsonFracExp (rest.dropWhile Char.isDigit)
    else none

/-- Rest of the input after a JSON number. -/
def jsonNumber : Bytes → Option Bytes
  | [] => none
  | c :: rest => if c = '-' then jsonUnsigned rest else jsonUnsigned (c :: rest)

/-- What `jsonParse` is asked to read: a value, the members of an object after
its opening brace, or the elements of an array after its opening bracket. -/
inductive JsonPart where
  | value
  | members
  | elements
deriving DecidableEq, Repr

/-- Rest of the input after one JSON value, or after the members and closing brace
of an object, or the elements and closing bracket of an array; the input starts
at the first significant character.  One unit of fuel is spent per value,
member and element. -/
def jsonParse : Nat → JsonPart → Bytes → Option Bytes
  | 0, _, _ => none
  | _ + 1, _, [] => none
  | fuel + 1, JsonPart.value, c :: rest =>
    if c = '{' then
      match skipWs rest with
      | [] => none
      | d :: r => if d = '}' then some r else jsonParse fuel JsonPart.members (d :: r)
    else if c = '[' then
      match skipWs rest with
      | [] => none
      | d :: r => if d = ']' then some r else jsonParse fuel JsonPart.elements (d :: r)
    else if c = '"' then jsonString 0 rest
    else if (c :: rest).take 4 = "true".toList then some ((c :: rest).drop 4)
    else if (c :: rest).take 5 = "false".toList then some ((c :: rest).drop 5)
    else if (c :: rest).take 4 = "null".toList then some ((c :: rest).drop 4)
    else jsonNumber (c :: rest)
  | fuel + 1, JsonPart.members, c :: rest =>
    if c = '"' then
      match jsonString 0 rest with
      | none => none
      | some r1 =>
        match skipWs r1 with
        | [] => none
        | d :: r2 =>
          if d = ':' then
            match jsonParse fuel JsonPart.value (skipWs r2) with
            | none => none
            | some r3 =>
              match skipWs r3 with
              | [] => none
              | e :: r4 =>
                if e = ',' then jsonParse fuel JsonPart.members (skipWs r4)
                else if e = '}' then some r4
                else none
          else none
    else none
  | fuel + 1, JsonPart.elements, c :: rest =>
    match jsonParse fuel JsonPart.value (c :: rest) with
    | none => none
    | some r1 =>
      match skipWs r1 with
      | [] => none
      | e :: r2 =>
        if e = ',' then jsonParse fuel JsonPart.elements (skipWs r2)
        else if e = ']' then some r2
        else none

/-- Whether the text is a single well-formed JSON object: optional whitespace, one
object whose keys are string literals and whose values are JSON values, optional
whitespace, and nothing else.  Every value, member and element takes at least
one character, so the fuel `s.length + 1` is never exhausted. -/
def isJsonObject (s : Bytes) : Bool :=
  match skipWs s with
  | [] => false
  | c :: rest =>
    if c = '{' then
      match jsonParse (s.length + 1) JsonPart.value (c :: rest) with
      | some r => (skipWs r).isEmpty
      | none => false
    else false

/-! ## A model of the path getter

`gjson.Get` is a library function outside the repository.  `UnmarshalJSON` takes
it as a parameter; `gjsonGet` below is the instance at which the decoder is
evaluated.  It follows the library's lazy, validation-free scan for plain dotted
paths: find the first opening brace, then read the members from left to right,
taking the next string literal as a key and the next value token as its value,
and descend into an object value when the key matches a path component that is
not the last one. -/

/-- Body of a string literal whose opening quote has been read, with its escapes
still in place, and the input after the closing quote; `none` when the literal
is not closed. -/
def scanString : Bytes → Option (Bytes × Bytes)
  | [] => none
  | '"' :: rest => some ([], rest)
  | '\\' :: c :: rest =>
    match scanString rest with
    | some (body, r) => some ('\\' :: c :: body, r)
    | none => none
  | c :: rest =>
    match scanString rest with
    | some (body, r) => some (c :: body, r)
    | none => none

/-- Value of one hexadecimal digit, 0 for any other character. -/
def hexVal (c : Char) : Nat :=
  if c.isDigit then c.toNat - '0'.toNat
  else if 'a' ≤ c && c ≤ 'f' then c.toNat - 'a'.toNat + 10
  else if 'A' ≤ c && c ≤ 'F' then c.toNat - 'A'.toNat + 10
  else 0

/-- Text of a string body with its escapes resolved.  Decoding stops at a control
character or at an escape JSON does not define and keeps what was read so far.
Surrogate pairs of `\u` escapes are outside the model. -/
def unescape : Bytes → Bytes
  | [] => []
  | '\\' :: 'u' :: a :: b :: c :: d :: rest =>
    Char.ofNat (((hexVal a * 16 + hexVal b) * 16 + hexVal c) * 16 + hexVal d) :: unescape rest
  | '\\' :: e :: rest =>
    if e = '\\' then '\\' :: unescape rest
    else if e = '/' then '/' :: unescape rest
    else if e = 'b' then Char.ofNat 8 :: unescape rest
    else if e = 'f' then Char.ofNat 12 :: unescape rest
    else if e = 'n' then '\n' :: unescape rest
    else if e = 'r' then '\r' :: unescape rest
    else if e = 't' then '\t' :: unescape rest
    else if e = '"' then '"' :: unescape rest
    else []
  | '\\' :: [] => []
  | c :: rest => if c.toNat < 32 then [] else c :: unescape rest

/-- Text of an object or array from its opening bracket to the matching closing
one, brackets inside string literals not counted, and the input after it.
`depth` is the number of brackets open and `inStr` whether the scan is inside a
string literal. -/
def squash : Bool → Nat → Bytes → Bytes × Bytes
  | _, _, [] => ([], [])
  | true, depth, '\\' :: c :: rest =>
    let (raw, r) := squash true depth rest
    ('\\' :: c :: raw, r)
  | true, depth, c :: rest =>
    let (raw, r) := squash (c != '"') depth rest
    (c :: raw, r)
  | false, depth, c :: rest =>
    if c = '"' then
      let (raw, r) := squash true depth rest
      (c :: raw, r)
    else if c = '{' || c = '[' then
      let (raw, r) := squash false (depth + 1) rest
      (c :: raw, r)
    else if c = '}' || c = ']' then
      if depth ≤ 1 then ([c], rest)
      else
        let (raw, r) := squash false (depth - 1) rest
        (c :: raw, r)
    else
      let (raw, r) := squash false depth rest
      (c :: raw, r)

/-- Value of a run of decimal digits read left to right from the accumulator
`acc`; `none` at any other character. -/
def parseDigits : Nat → Bytes → Option Nat
  | acc, [] => some acc
  | acc, c :: rest =>
    if c.isDigit then parseDigits (acc * 10 + (c.toNat - '0'.toNat)) rest else none

/-- Integer written as an optional minus sign and at least one decimal digit,
0 for any other text. -/
def parseInt (s : Bytes) : Int :=
  match s with
  | [] => 0
  | '-' :: [] => 0
  | '-' :: rest =>
    match parseDigits 0 rest with
    | some n => - (n : Int)
    | none => 0
  | _ =>
    match parseDigits 0 s with
    | some n => (n : Int)
    | none => 0

/-- Whether a character ends a number token. -/
def endsNumber (c : Char) : Bool :=
  c.toNat ≤ 32 || c = ',' || c = ']' || c = '}'

/-- Result of a path that is not found: `Int()` is 0 and `String()` is empty. -/
def Result.none : Result := { Int := 0, String := [] }

/-- Result for a string value: `String()` is its text and `Int()` the integer the
text spells, 0 when it spells none. -/
def Result.ofString (str : Bytes) : Result := { Int := parseInt str, String := str }

/-- Result for a number token: `String()` is the token and `Int()` its value.
A token with a fraction or an exponent goes through a float in the library and
is outside the model, which reads it as 0. -/
def Result.ofNumber (raw : Bytes) : Result := { Int := parseInt raw, String := raw }

/-- Result for a token that starts with a lower-case letter: `true`, `false` or
`null`, told apart by the first letter as the library does. -/
def Result.ofLiteral (raw : Bytes) : Result :=
  match raw with
  | 't' :: _ => { Int := 1, String := "true".toList }
  | 'f' :: _ => { Int := 0, String := "false".toList }
  | _ => Result.none

/-- Result for an object or array value: `String()` is its text, `Int()` is 0. -/
def Result.ofJSON (raw : Bytes) : Result := { Int := 0, String := raw }

/-- Text of a key or string body: its escapes are resolved when it has any. -/
def strOf (body : Bytes) : Bytes :=
  if body.contains '\\' then unescape body else body

/-- Input from the next double quote or closing brace on. -/
def toKey (s : Bytes) : Bytes := s.dropWhile (fun c => c != '"' && c != '}')

/-- Whether a character starts a value token: a string, an object, an array, a
literal or a number. -/
def startsValue (c : Char) : Bool :=
  c = '"' || c = '{' || c = '[' || c = 't' || c = 'f' || c = 'n' || c = '-' || c.isDigit

/-- Input from the next character that starts a value token on. -/
def toValue (s : Bytes) : Bytes := s.dropWhile (fun c => !startsValue c)

/-- Scan of the members of an object whose opening brace has been read, for the
path components `part :: more`: the input after the scan and the result when
the path is found. -/
def parseObject : Nat → Bytes → Bytes → List Bytes → Bytes × Option Result
  | 0, s, _, _ => (s, none)
  | fuel + 1, s, part, more =>
    match toKey s with
    | [] => ([], none)
    | '}' :: rest => (rest, none)
    | _ :: afterQuote =>
      match scanString afterQuote with
      | none => ([], none)
      | some (keyBody, afterKey) =>
        let pmatch : Bool := strOf keyBody = part
        let hit : Bool := pmatch && more.isEmpty
        match toValue afterKey with
        | [] => ([], none)
        | '"' :: v =>
          match scanString v with
          | none => ([], none)
          | some (body, r) =>
            if hit then (r, some (Result.ofString (strOf body)))
            else parseObject fuel r part more
        | '{' :: v =>
          if pmatch && !hit then
            match more with
            | [] => (v, none)
            | part1 :: more1 =>
              match parseObject fuel v part1 more1 with
              | (r, some res) => (r, some res)
              | (r, none) => parseObject fuel r part more
          else
            let (raw, r) := squash false 0 ('{' :: v)
            if hit then (r, some (Result.ofJSON raw))
            else parseObject fuel r part more
        | '[' :: v =>
          let (raw, r) := squash false 0 ('[' :: v)
          if hit then (r, some (Result.ofJSON raw))
          else parseObject fuel r part more
        | c :: v =>
          if c = 't' || c = 'f' || c = 'n' then
            let raw := (c :: v).takeWhile Char.isLower
            let r := (c :: v).dropWhile Char.isLower
            if hit then (r, some (Result.ofLiteral raw))
            else parseObject fuel r part more
          else
            let raw := (c :: v).takeWhile (fun x => !endsNumber x)
            let r := (c :: v).dropWhile (fun x => !endsNumber x)
            if hit then (r, some (Result.ofNumber raw))
            else parseObject fuel r part more

/-- Components of a dotted path. -/
def splitPath (path : Bytes) : List Bytes := path.splitOn '.'

/-- Modelled from the spec: the external JSON query facility of section 6
(`gjson.Get`, a library function), a path-based getter with zero-value defaults
on a missing path.  The document is scanned from its first opening brace; a
document without one has no members. -/
def gjsonGet (json path : Bytes) : Result :=
  match splitPath path with
  | [] => Result.none
  | part :: more =>
    match json.dropWhile (fun c => c != '{' && c != '[') with
    | '{' :: rest =>
      match (parseObject (json.length + 1) rest part more).2 with
      | some res => res
      | none => Result.none
    | _ => Result.none

/-! ## Scanning for the opener of the message field -/

/-- One step of a scan for the three characters `,"e`: state 1 after a comma,
state 2 after a comma and a double quote, state 3 once the three have been read
in a row; state 3 is kept. -/
def keyStep (q : Nat) (c : Char) : Nat :=
  if q = 3 then 3
  else if c = ',' then 1
  else if q = 1 ∧ c = '"' then 2
  else if q = 2 ∧ c = 'e' then 3
  else 0

/-- State of the scan after a text, started in state `q`. -/
def keyRun (q : Nat) (s : Bytes) : Nat := s.foldl keyStep q

/-! ## Scanning for the quoted word `"error_msg"` -/

/-- The quoted word `"error_msg"`, eleven characters. -/
def word : Bytes := "\"error_msg\"".toList

/-- One step of a scan for `word`: state `k` below 11 means that the last `k`
characters read are the first `k` of the word; state 11, once reached, is
kept.  The double quote occurs in the word at its two ends only, so a
character that does not continue the word restarts it at 1 when it is a double
quote and at 0 otherwise. -/
def wStep (k : Nat) (c : Char) : Nat :=
  if 11 ≤ k then 11
  else if word[k]? = some c then k + 1
  else if c = '"' then 1
  else 0

/-- State of the scan for `word` after a text, started in state `k`. -/
def wRun (k : Nat) (s : Bytes) : Nat := s.foldl wStep k

/-- The step of the scan over the escape of one character of a reason: an escaped
double quote restarts the word at 1, every other character acts as itself. -/
def rStep (k : Nat) (c : Char) : Nat :=
  if c = '"' then 1 else wStep k c

/-- State after the characters of a reason, each read through its escape. -/
def rRun (k : Nat) (s : Bytes) : Nat := s.foldl rStep k

/-! ## Reading an escape back -/

/-- Character that the escape at the head of a string body stands for, and the body
after that escape; `none` for an empty body and for a backslash that is not
followed by an escape. -/
def unescapeHead : Bytes → Option (Char × Bytes)
  | [] => none
  | c :: rest =>
    if c = '\\' then
      match rest with
      | [] => none
      | e :: rest1 =>
        if e = 'u' then
          match rest1 with
          | a :: b :: x :: y :: rest2 =>
            some (Char.ofNat (((hexVal a * 16 + hexVal b) * 16 + hexVal x) * 16 + hexVal y),
              rest2)
          | _ => none
        else if e = 'n' then some ('\n', rest1)
        else if e = 'r' then some ('\r', rest1)
        else if e = 't' then some ('\t', rest1)
        else if e = 'b' then some (Char.ofNat 8, rest1)
        else if e = 'f' then some (Char.ofNat 12, rest1)
        else some (e, rest1)
    else some (c, rest)

/-! ## The encoder -/

/-- The encoder's output for a record with a message and a reason, laid out as the
code builds it. -/
theorem MarshalJSON_full (code : Int) (m : Char) (ms : Bytes) (x : Char) (xs : Bytes) :
    MarshalJSON (some (NewRerror code (m :: ms) (x :: xs)))
      = (reA ++ FormatInt code ++ reB ++ ToJsonStr (m :: ms) ++ reC ++ ToJsonStr (x :: xs)
          ++ ['}', '}'], none) := by
  simp [MarshalJSON, NewRerror]

/-- The encoder's output for a record without a reason. -/
theorem MarshalJSON_noReason (code : Int) (msg : Bytes) :
    MarshalJSON (some (NewRerror code msg []))
      = (reA ++ FormatInt code ++ (if msg = [] then [] else reB ++ ToJsonStr msg) ++ reD ++ ['}'],
          none) := by
  cases msg <;> simp [MarshalJSON, NewRerror]

/-- C1: for code 400, message "bad request" and reason "missing field x" the
encoder returns the bytes with the key `reason` unquoted, which are not the
bytes the wire format prescribes; for every record with a message and a reason
the data object opens with the unquoted key. -/
theorem C1_reason_key_unquoted :
    (∀ (code : Int) (m : Char) (ms : Bytes) (x : Char) (xs : Bytes),
      MarshalJSON (some (NewRerror code (m :: ms) (x :: xs)))
        = ("\x7b\"error_code\":".toList ++ FormatInt code ++ ",\"error_msg\":".toList
            ++ ToJsonStr (m :: ms) ++ ",\"data\":\x7breason:".toList ++ ToJsonStr (x :: xs)
            ++ "\x7d\x7d".toList, none))
    ∧ MarshalJSON (some (NewRerror 400 "bad request".toList "missing field x".toList))
        = ("\x7b\"error_code\":400,\"error_msg\":\"bad request\",\"data\":\x7breason:\"missing field x\"\x7d\x7d".toList,
            none)
    ∧ (MarshalJSON (some (NewRerror 400 "bad request".toList "missing field x".toList))).1
        ≠ "\x7b\"error_code\":400,\"error_msg\":\"bad request\",\"data\":\x7b\"reason\":\"missing field x\"\x7d\x7d".toList := by
  refine ⟨?_, by decide, by decide⟩
  intro code m ms x xs
  rw [MarshalJSON_full]
  rfl

/-- C2: a record without a reason encodes to the `error_code` field with the decimal
code, the `error_msg` field exactly when the message is not empty, and the
empty `data` object; code 500 without message and reason gives
`{"error_code":500,"data":{}}`, and a negative code is written with its sign. -/
theorem C2_marshal_without_reason :
    (∀ (code : Int) (msg : Bytes),
      MarshalJSON (some { ErrorCode := code, ErrorMsg := msg, Data := { Reason := [] } })
        = ("\x7b\"error_code\":".toList ++ FormatInt code
            ++ (if msg = [] then [] else ",\"error_msg\":".toList ++ ToJsonStr msg)
            ++ ",\"data\":\x7b\x7d\x7d".toList, none))
    ∧ MarshalJSON (some { ErrorCode := 500, ErrorMsg := [], Data := { Reason := [] } })
        = ("\x7b\"error_code\":500,\"data\":\x7b\x7d\x7d".toList, none)
    ∧ MarshalJSON (some { ErrorCode := -2147483648, ErrorMsg := "no".toList, Data := { Reason := [] } })
        = ("\x7b\"error_code\":-2147483648,\"error_msg\":\"no\",\"data\":\x7b\x7d\x7d".toList, none)
    ∧ (∀ n : Nat, FormatInt (-(n + 1 : Nat)) = '-' :: FormatInt (n + 1 : Nat)) := by
  refine ⟨?_, by decide, by decide, ?_⟩
  · intro code msg
    have h := MarshalJSON_noReason code msg
    simp only [NewRerror] at h
    rw [h]
    cases msg <;> simp [reA, reB, reD]
  · intro n
    have h1 : (-((n + 1 : Nat) : Int)) < 0 := by omega
    have h2 : ¬ (((n + 1 : Nat) : Int) < 0) := by omega
    simp only [FormatInt, h1, h2, if_true, if_false, Int.natAbs_neg, Int.natAbs_ofNat,
      Int.toNat_ofNat]

/-- C5: on a nil receiver the encoder returns no bytes and a nil error; on every
record it returns at least one byte and a nil error. -/
theorem C5_marshal_absent_and_present :
    MarshalJSON none = ([], none)
    ∧ (MarshalJSON none).1 ≠ "null".toList
    ∧ (MarshalJSON none).1 ≠ "\x7b\x7d".toList
    ∧ (∀ r : Rerror, (MarshalJSON (some r)).1 ≠ [] ∧ 0 < (MarshalJSON (some r)).1.length
        ∧ (MarshalJSON (some r)).2 = none) := by
  refine ⟨rfl, by decide, by decide, ?_⟩
  intro r
  have h : (MarshalJSON (some r)).1 ≠ [] := by
    simp [MarshalJSON]
  exact ⟨h, List.length_pos.mpr h, rfl⟩

/-! ## Omission of the message field -/

/-- The chain `,"e` is found in a text exactly when the scan ends in state 3. -/
theorem keyRun_three (s : Bytes) : keyRun 3 s = 3 := by
  induction s with
  | nil => rfl
  | cons c rest ih => simpa [keyRun, keyStep] using ih

/-- The scan of a concatenation continues from the state the first part ends in. -/
theorem keyRun_append (q : Nat) (s t : Bytes) : keyRun q (s ++ t) = keyRun (keyRun q s) t := by
  simp [keyRun, List.foldl_append]

/-- Reading `,"e` from any state ends in state 3. -/
theorem keyRun_pattern (q : Nat) : keyRun q [',', '"', 'e'] = 3 := by
  by_cases h : q = 3
  · simp [keyRun, keyStep, h]
  · simp [keyRun, keyStep, h]

/-- A text that contains `,"e` is scanned to state 3. -/
theorem keyRun_of_infix (s : Bytes) (h : [',', '"', 'e'] <:+: s) : keyRun 0 s = 3 := by
  obtain ⟨a, b, rfl⟩ := h
  rw [keyRun_append, keyRun_append, keyRun_pattern, keyRun_three]

/-- From state 0 a text without a comma is scanned to state 0. -/
theorem keyRun_zero_of_no_comma (s : Bytes) (h : ∀ c ∈ s, c ≠ ',') : keyRun 0 s = 0 := by
  induction s with
  | nil => rfl
  | cons c rest ih =>
    have hc : c ≠ ',' := h c (List.mem_cons_self _ _)
    have hstep : keyStep 0 c = 0 := by simp [keyStep, hc]
    have hrest : keyRun 0 rest = 0 := ih (fun d hd => h d (List.mem_cons_of_mem _ hd))
    simpa [keyRun, hstep] using hrest

/-- A digit character is neither a comma nor a double quote. -/
theorem digitChar_plain (k : Nat) : Nat.digitChar k ≠ ',' ∧ Nat.digitChar k ≠ '"' := by
  by_cases hk : k < 16
  · interval_cases k <;> decide
  · have hstar : Nat.digitChar k = '*' := by
      unfold Nat.digitChar
      repeat rw [if_neg (by omega)]
    rw [hstar]
    decide

/-- The characters of a digit string are digit characters or come from the
accumulator. -/
theorem mem_toDigitsCore (b : Nat) (fuel : Nat) : ∀ (n : Nat) (acc : List Char) (c : Char),
    c ∈ Nat.toDigitsCore b fuel n acc → c ∈ acc ∨ ∃ k, c = Nat.digitChar k := by
  induction fuel with
  | zero =>
    intro n acc c h
    simp [Nat.toDigitsCore] at h
    exact Or.inl h
  | succ f ih =>
    intro n acc c h
    simp only [Nat.toDigitsCore] at h
    split_ifs at h with h0
    · rcases List.mem_cons.mp h with h | h
      · exact Or.inr ⟨_, h⟩
      · exact Or.inl h
    · rcases ih _ _ _ h with h | h
      · rcases List.mem_cons.mp h with h | h
        · exact Or.inr ⟨_, h⟩
        · exact Or.inl h
      · exact Or.inr h

/-- The decimal rendering of a code holds neither a comma nor a double quote. -/
theorem FormatInt_plain (i : Int) : ∀ c ∈ FormatInt i, c ≠ ',' ∧ c ≠ '"' := by
  intro c hc
  have key : ∀ n : Nat, c ∈ Nat.toDigits 10 n → c ≠ ',' ∧ c ≠ '"' := by
    intro n hn
    rcases mem_toDigitsCore 10 _ _ _ _ hn with h | ⟨k, rfl⟩
    · simp at h
    · exact digitChar_plain k
  unfold FormatInt at hc
  split_ifs at hc
  · rcases List.mem_cons.mp hc with h | h
    · rw [h]; decide
    · exact key _ h
  · exact key _ hc

/-- One step from a state below 2 on a character other than the double quote stays
below 2. -/
theorem keyStep_le_one (q : Nat) (c : Char) (hq : q ≤ 1) (hc : c ≠ '"') : keyStep q c ≤ 1 := by
  unfold keyStep
  split_ifs <;> simp_all

/-- One step from a state below 2 on a character that is neither comma nor double
quote goes to state 0. -/
theorem keyStep_plain (q : Nat) (c : Char) (hq : q ≤ 1) (h1 : c ≠ ',') (h2 : c ≠ '"') :
    keyStep q c = 0 := by
  unfold keyStep
  split_ifs <;> simp_all

/-- The escape of one character, read from a state below 2, ends below 2: a double
quote in it follows a backslash, never a comma. -/
theorem keyRun_escapeChar (q : Nat) (c : Char) (hq : q ≤ 1) : keyRun q (escapeChar c) ≤ 1 := by
  have hb : keyStep q '\\' = 0 := keyStep_plain q _ hq (by decide) (by decide)
  have two : ∀ e : Char, keyRun q ['\\', e] = keyStep 0 e := by
    intro e
    show keyStep (keyStep q '\\') e = keyStep 0 e
    rw [hb]
  unfold escapeChar
  split_ifs with h1 h2 h3 h4 h5 h6 h7 h8
  · rw [two]; decide
  · rw [two]; decide
  · rw [two]; decide
  · rw [two]; decide
  · rw [two]; decide
  · rw [two]; decide
  · rw [two]; decide
  · have e3 : keyStep 0 (hexDigit (c.toNat / 16)) = 0 :=
      keyStep_plain 0 _ (by omega) (digitChar_plain _).1 (digitChar_plain _).2
    have e4 : keyStep 0 (hexDigit (c.toNat % 16)) = 0 :=
      keyStep_plain 0 _ (by omega) (digitChar_plain _).1 (digitChar_plain _).2
    show keyStep (keyStep (keyStep (keyStep (keyStep (keyStep q '\\') 'u') '0') '0')
      (hexDigit (c.toNat / 16))) (hexDigit (c.toNat % 16)) ≤ 1
    rw [hb]
    have e1 : keyStep (keyStep (keyStep 0 'u') '0') '0' = 0 := by decide
    rw [e1, e3, e4]
    omega
  · exact keyStep_le_one q c hq h1

/-- The escaped body of a text, read from a state below 2, ends below 2. -/
theorem keyRun_body (s : Bytes) : ∀ q : Nat, q ≤ 1 → keyRun q (s.flatMap escapeChar) ≤ 1 := by
  induction s with
  | nil => intro q hq; simpa [keyRun] using hq
  | cons c rest ih =>
    intro q hq
    rw [List.flatMap_cons, keyRun_append]
    exact ih _ (keyRun_escapeChar q c hq)

/-- The quoted literal of a text, read from state 0, ends in state 0 or 2. -/
theorem keyRun_ToJsonStr (s : Bytes) : keyRun 0 (ToJsonStr s) = 0 ∨ keyRun 0 (ToJsonStr s) = 2 := by
  have hq : keyRun 0 ['"'] = 0 := by decide
  have hbody := keyRun_body s 0 (by omega)
  have hsplit : ToJsonStr s = ['"'] ++ (s.flatMap escapeChar ++ ['"']) := rfl
  rw [hsplit, keyRun_append, hq, keyRun_append]
  generalize keyRun 0 (s.flatMap escapeChar) = q at hbody
  interval_cases q
  · left; decide
  · right; decide

/-- State 11 of the scan for the word is kept. -/
theorem wRun_eleven (s : Bytes) : wRun 11 s = 11 := by
  induction s with
  | nil => rfl
  | cons c rest ih => simpa [wRun, wStep] using ih

/-- The scan of a concatenation continues from the state the first part ends in. -/
theorem wRun_append (k : Nat) (s t : Bytes) : wRun k (s ++ t) = wRun (wRun k s) t := by
  simp [wRun, List.foldl_append]

/-- The scan for the word never leaves the states 0 to 11. -/
theorem wRun_le (s : Bytes) : ∀ k : Nat, k ≤ 11 → wRun k s ≤ 11 := by
  induction s with
  | nil => intro k hk; exact hk
  | cons c rest ih =>
    intro k hk
    have hstep : wStep k c ≤ 11 := by
      unfold wStep
      split_ifs <;> omega
    exact ih _ hstep

/-- Reading the word from any state ends in state 11. -/
theorem wRun_word (k : Nat) (hk : k ≤ 11) : wRun k word = 11 := by
  interval_cases k <;> decide

/-- A text that contains the word is scanned to state 11. -/
theorem wRun_of_infix (s : Bytes) (h : word <:+: s) : wRun 0 s = 11 := by
  obtain ⟨a, b, rfl⟩ := h
  rw [wRun_append, wRun_append, wRun_word _ (wRun_le a 0 (by omega)), wRun_eleven]

/-- From state 0 a text without a double quote is scanned to state 0. -/
theorem wRun_zero_of_no_quote (s : Bytes) (h : ∀ c ∈ s, c ≠ '"') : wRun 0 s = 0 := by
  induction s with
  | nil => rfl
  | cons c rest ih =>
    have hc : c ≠ '"' := h c (List.mem_cons_self _ _)
    have hstep : wStep 0 c = 0 := by
      have : ¬ ('"' = c) := fun e => hc e.symm
      simp [wStep, word, this, hc]
    have hrest : wRun 0 rest = 0 := ih (fun d hd => h d (List.mem_cons_of_mem _ hd))
    simpa [wRun, hstep] using hrest

/-- A character that is not in the word and is no double quote sends every state
below 11 to state 0. -/
theorem wStep_outside (k : Nat) (c : Char) (hk : k ≤ 10) (hc : c ∉ word) : wStep k c = 0 := by
  have hq : c ≠ '"' := by
    intro e
    apply hc
    rw [e]
    decide
  have hget : word[k]? ≠ some c := by
    intro e
    exact hc (List.mem_iff_getElem?.mpr ⟨k, e⟩)
  have h11 : ¬ 11 ≤ k := by omega
  simp [wStep, h11, hget, hq]

/-- A step over a reason character from a state below 11 stays below 11. -/
theorem rStep_le (k : Nat) (c : Char) (hk : k ≤ 10) : rStep k c ≤ 10 := by
  unfold rStep
  split_ifs with hq
  · omega
  · unfold wStep
    have h11 : ¬ 11 ≤ k := by omega
    simp only [h11, if_false]
    split_ifs with h1
    · by_cases h10 : k = 10
      · subst h10
        have : word[10]? = some '"' := by decide
        rw [this] at h1
        exact absurd (Option.some.inj h1).symm hq
      · omega
    · omega

/-- The scan over the escape of one character is one step over the character. -/
theorem wRun_escapeChar (k : Nat) (c : Char) (hk : k ≤ 10) :
    wRun k (escapeChar c) = rStep k c := by
  have hb : wStep k '\\' = 0 := wStep_outside k _ hk (by decide)
  have two : ∀ e : Char, wRun k ['\\', e] = wStep 0 e := by
    intro e
    show wStep (wStep k '\\') e = wStep 0 e
    rw [hb]
  unfold escapeChar
  split_ifs with h1 h2 h3 h4 h5 h6 h7 h8
  · rw [two, h1, rStep, if_pos rfl]; decide
  · rw [two, h2, rStep, if_neg (by decide), hb]; decide
  · rw [two, h3, rStep, if_neg (by decide), wStep_outside k _ hk (by decide)]; decide
  · rw [two, h4, rStep, if_neg (by decide), wStep_outside k _ hk (by decide)]; decide
  · rw [two, h5, rStep, if_neg (by decide), wStep_outside k _ hk (by decide)]; decide
  · rw [two, h6, rStep, if_neg (by decide), wStep_outside k _ hk (by decide)]; decide
  · rw [two, h7, rStep, if_neg (by decide), wStep_outside k _ hk (by decide)]; decide
  · have hout : c ∉ word := by
      intro hmem
      have : ∀ d ∈ word, ¬ d.toNat < 32 := by decide
      exact this c hmem h8
    have hd : ∀ n : Nat, wStep 0 (hexDigit n) = 0 := by
      intro n
      have hn : hexDigit n ≠ '"' := (digitChar_plain n).2
      have hn2 : ¬ ('"' = hexDigit n) := fun e => hn e.symm
      simp [wStep, word, hn, hn2]
    show wStep (wStep (wStep (wStep (wStep (wStep k '\\') 'u') '0') '0')
      (hexDigit (c.toNat / 16))) (hexDigit (c.toNat % 16)) = rStep k c
    rw [hb]
    have e1 : wStep (wStep (wStep 0 'u') '0') '0' = 0 := by decide
    rw [e1, hd, hd, rStep, if_neg h1, wStep_outside k c hk hout]
  · show wStep k c = rStep k c
    rw [rStep, if_neg h1]

/-- The scan over the escaped body of a reason is the scan over the reason. -/
theorem wRun_body (s : Bytes) : ∀ k : Nat, k ≤ 10 →
    wRun k (s.flatMap escapeChar) = rRun k s ∧ rRun k s ≤ 10 := by
  induction s with
  | nil => intro k hk; exact ⟨rfl, hk⟩
  | cons c rest ih =>
    intro k hk
    rw [List.flatMap_cons, wRun_append, wRun_escapeChar k c hk]
    exact ih _ (rStep_le k c hk)

/-- After an opening quote and a reason, state `k` of the scan means that the first
`k` characters of the word end the quote followed by the reason. -/
theorem rRun_sound (s : Bytes) :
    rRun 1 s ≤ 10 ∧ word.take (rRun 1 s) <:+ '"' :: s := by
  induction s using List.reverseRecOn with
  | nil => exact ⟨by decide, by decide⟩
  | append_singleton r c ih =>
    obtain ⟨hle, hsuf⟩ := ih
    have hrun : rRun 1 (r ++ [c]) = rStep (rRun 1 r) c := by
      simp [rRun, List.foldl_append]
    rw [hrun]
    refine ⟨rStep_le _ c hle, ?_⟩
    generalize rRun 1 r = k at hle hsuf
    have hcons : '"' :: (r ++ [c]) = ('"' :: r) ++ [c] := rfl
    rw [hcons]
    unfold rStep
    split_ifs with hq
    · rw [hq]
      exact ⟨'"' :: r, rfl⟩
    · unfold wStep
      have h11 : ¬ 11 ≤ k := by omega
      simp only [h11, if_false]
      split_ifs with h1
      · have htake : word.take (k + 1) = word.take k ++ [c] := by
          rw [List.take_succ, h1]
          rfl
        rw [htake]
        obtain ⟨t, ht⟩ := hsuf
        exact ⟨t, by rw [← ht, List.append_assoc]⟩
      · exact ⟨('"' :: r) ++ [c], by simp⟩

/-- The escaped body of a reason that ends in `"error_msg` ends in `\"error_msg`. -/
theorem body_of_suffix (r : Bytes) :
    (r ++ "\"error_msg".toList).flatMap escapeChar
      = r.flatMap escapeChar ++ "\\\"error_msg".toList := by
  rw [List.flatMap_append]
  congr 1

/-- The encoder's output for a record with a reason and no message. -/
theorem MarshalJSON_noMsg (code : Int) (x : Char) (xs : Bytes) :
    (MarshalJSON (some { ErrorCode := code, ErrorMsg := [], Data := { Reason := x :: xs } })).1
      = reA ++ (FormatInt code ++ (reC ++ ('"' :: ((x :: xs).flatMap escapeChar
          ++ ['"', '}', '}'])))) := by
  simp [MarshalJSON, ToJsonStr]

/-- The encoder's output for a record with neither reason nor message. -/
theorem MarshalJSON_bare (code : Int) :
    (MarshalJSON (some { ErrorCode := code, ErrorMsg := [], Data := { Reason := [] } })).1
      = reA ++ (FormatInt code ++ (reD ++ ['}'])) := by
  simp [MarshalJSON]

/-- With an empty message, the output contains the quoted word only if the reason
is `error_msg` or ends in `"error_msg`. -/
theorem reason_of_word (code : Int) (reason : Bytes)
    (hin : word <:+: (MarshalJSON (some
      { ErrorCode := code, ErrorMsg := [], Data := { Reason := reason } })).1) :
    reason = "error_msg".toList ∨ "\"error_msg".toList <:+ reason := by
  have hrun := wRun_of_infix _ hin
  have hA : wRun 0 reA = 0 := by decide
  have hcode : wRun 0 (FormatInt code) = 0 :=
    wRun_zero_of_no_quote _ (fun c hc => (FormatInt_plain code c hc).2)
  cases reason with
  | nil =>
    rw [MarshalJSON_bare, wRun_append, hA, wRun_append, hcode] at hrun
    revert hrun
    decide
  | cons x xs =>
    have hC : wRun 0 (reC ++ ['"']) = 1 := by decide
    have hsplit : reC ++ ('"' :: ((x :: xs).flatMap escapeChar ++ ['"', '}', '}']))
        = (reC ++ ['"']) ++ ((x :: xs).flatMap escapeChar ++ ['"', '}', '}']) := by simp
    rw [MarshalJSON_noMsg, wRun_append, hA, wRun_append, hcode, hsplit, wRun_append, hC,
      wRun_append, (wRun_body (x :: xs) 1 (by omega)).1] at hrun
    obtain ⟨hle, hsuf⟩ := rRun_sound (x :: xs)
    generalize rRun 1 (x :: xs) = k at hrun hle hsuf
    have hk : k = 10 := by
      interval_cases k <;> first | rfl | (revert hrun; decide)
    subst hk
    have htake : word.take 10 = "\"error_msg".toList := by decide
    rw [htake] at hsuf
    rcases List.suffix_cons_iff.mp hsuf with h | h
    · left
      exact (List.cons.inj h).2.symm
    · right
      exact h

/-- C6, as the code has it: when the message is empty the encoder's output does not
contain the field opener `,"error_msg":`, for every code and every reason, and
it contains the opener when the message is not empty; with an empty message the
quoted word `"error_msg"` is in the output exactly when the reason is
`error_msg` or ends in `"error_msg`. -/
theorem C6_no_message_field (code : Int) (reason : Bytes) :
    ¬ (",\"error_msg\":".toList
        <:+: (MarshalJSON (some { ErrorCode := code, ErrorMsg := [], Data := { Reason := reason } })).1)
    ∧ (∀ (m : Char) (ms : Bytes), ",\"error_msg\":".toList
        <:+: (MarshalJSON (some { ErrorCode := code, ErrorMsg := m :: ms, Data := { Reason := reason } })).1)
    ∧ ("\"error_msg\"".toList
        <:+: (MarshalJSON (some { ErrorCode := code, ErrorMsg := [], Data := { Reason := reason } })).1
      ↔ (reason = "error_msg".toList ∨ "\"error_msg".toList <:+ reason)) := by
  refine ⟨?_, ?_, ?_, ?_⟩
  · intro hin
    have h3 : [',', '"', 'e'] <:+: (MarshalJSON (some
        { ErrorCode := code, ErrorMsg := [], Data := { Reason := reason } })).1 :=
      List.IsInfix.trans ⟨[], "rror_msg\":".toList, rfl⟩ hin
    have hrun := keyRun_of_infix _ h3
    have hA : keyRun 0 reA = 0 := by decide
    have hcode : keyRun 0 (FormatInt code) = 0 :=
      keyRun_zero_of_no_comma _ (fun c hc => (FormatInt_plain code c hc).1)
    cases reason with
    | nil =>
      rw [MarshalJSON_bare, keyRun_append, hA, keyRun_append, hcode] at hrun
      revert hrun
      decide
    | cons x xs =>
      have hout : (MarshalJSON (some
            { ErrorCode := code, ErrorMsg := [], Data := { Reason := x :: xs } })).1
          = reA ++ (FormatInt code ++ (reC ++ (ToJsonStr (x :: xs) ++ ['}', '}']))) := by
        simp [MarshalJSON]
      have hC : keyRun 0 reC = 0 := by decide
      rw [hout, keyRun_append, hA, keyRun_append, hcode, keyRun_append, hC, keyRun_append] at hrun
      rcases keyRun_ToJsonStr (x :: xs) with h | h
      · rw [h] at hrun
        revert hrun
        decide
      · rw [h] at hrun
        revert hrun
        decide
  · intro m ms
    cases reason with
    | nil =>
      refine ⟨reA ++ FormatInt code, ToJsonStr (m :: ms) ++ reD ++ ['}'], ?_⟩
      simp [MarshalJSON, reB]
    | cons x xs =>
      refine ⟨reA ++ FormatInt code, ToJsonStr (m :: ms) ++ reC ++ ToJsonStr (x :: xs) ++ ['}', '}'], ?_⟩
      simp [MarshalJSON, reB]
  · exact reason_of_word code reason
  · intro h
    rcases h with h | ⟨t, ht⟩
    · subst h
      refine ⟨reA ++ FormatInt code ++ reC, ['}', '}'], ?_⟩
      have hr : "error_msg".toList = 'e' :: "rror_msg".toList := rfl
      rw [hr, MarshalJSON_noMsg]
      have hb : ('e' :: "rror_msg".toList).flatMap escapeChar = "error_msg".toList := by decide
      rw [hb]
      simp
    · cases reason with
      | nil =>
        exfalso
        have := congrArg List.length ht
        simp at this
      | cons x xs =>
        refine ⟨reA ++ FormatInt code ++ reC ++ ('"' :: t.flatMap escapeChar ++ ['\\']),
          ['}', '}'], ?_⟩
        rw [MarshalJSON_noMsg, ← ht, body_of_suffix]
        simp

/-- C6, as stated, fails: with an empty message and the reason `error_msg` the output
contains the quoted word `"error_msg"`, and so it does for the reason
`"error_msg` that opens with a quote. -/
theorem C6_quoted_word_in_reason :
    "\"error_msg\"".toList
      <:+: (MarshalJSON (some (NewRerror 0 [] "error_msg".toList))).1
    ∧ "\"error_msg\"".toList
      <:+: (MarshalJSON (some (NewRerror 0 [] "\"error_msg".toList))).1 := by
  constructor
  · exact ⟨"\x7b\"error_code\":0,\"data\":\x7breason:".toList, "\x7d\x7d".toList, by decide⟩
  · exact ⟨"\x7b\"error_code\":0,\"data\":\x7breason:\"\\".toList, "\x7d\x7d".toList, by decide⟩

/-! ## Encoding followed by decoding -/

set_option maxRecDepth 8000 in
/-- The bytes the encoder returns for code 400, message "bad request" and reason
"missing field x" nowhere hold the quoted key `"reason"`. -/
theorem no_quoted_reason_key :
    ¬ ("\"reason\"".toList <:+:
      (MarshalJSON (some (NewRerror 400 "bad request".toList "missing field x".toList))).1) := by
  decide

/-- C3: decoding the bytes the encoder returns for code 400, message "bad request"
and reason "missing field x" gives back the code and the message and an empty
reason: the bytes do not hold the quoted key `"reason"`, the unquoted word is
not a member name, and the lookup of `data.reason` finds nothing.  The bytes of
the prescribed wire format decode to the full record.  A message with a double
quote, a backslash and a newline comes back as it was, again with an empty
reason. -/
theorem C3_roundtrip_loses_reason :
    (UnmarshalJSON gjsonGet (some newRerror)
        (MarshalJSON (some (NewRerror 400 "bad request".toList "missing field x".toList))).1).1
      = some (NewRerror 400 "bad request".toList [])
    ∧ (UnmarshalJSON gjsonGet (some newRerror)
        (MarshalJSON (some (NewRerror 400 "bad request".toList "missing field x".toList))).1).1
      ≠ some (NewRerror 400 "bad request".toList "missing field x".toList)
    ∧ ¬ ("\"reason\"".toList <:+:
        (MarshalJSON (some (NewRerror 400 "bad request".toList "missing field x".toList))).1)
    ∧ (UnmarshalJSON gjsonGet (some newRerror)
        "\x7b\"error_code\":400,\"error_msg\":\"bad request\",\"data\":\x7b\"reason\":\"missing field x\"\x7d\x7d".toList).1
      = some (NewRerror 400 "bad request".toList "missing field x".toList)
    ∧ (UnmarshalJSON gjsonGet (some newRerror)
        (MarshalJSON (some (NewRerror (-7) "a\"b\\c\nd".toList "why".toList))).1).1
      = some (NewRerror (-7) "a\"b\\c\nd".toList []) := by
  refine ⟨by decide, by decide, no_quoted_reason_key, by decide, by decide⟩

/-! ## Well-formedness of the encoder's output -/

/-- A hexadecimal digit character is accepted as one. -/
theorem isHex_hexDigit (n : Nat) (h : n < 16) : isHex (hexDigit n) = true := by
  interval_cases n <;> decide

/-- The escape of one character is read inside a string literal. -/
theorem jsonString_escapeChar (c : Char) (X : Bytes) :
    jsonString 0 (escapeChar c ++ X) = jsonString 0 X := by
  unfold escapeChar
  split_ifs with h1 h2 h3 h4 h5 h6 h7 h8
  · simp [jsonString, isShortEscape]
  · simp [jsonString, isShortEscape]
  · simp [jsonString, isShortEscape]
  · simp [jsonString, isShortEscape]
  · simp [jsonString, isShortEscape]
  · simp [jsonString, isShortEscape]
  · simp [jsonString, isShortEscape]
  · have a1 : isHex (hexDigit (c.toNat / 16)) = true := isHex_hexDigit _ (by omega)
    have a2 : isHex (hexDigit (c.toNat % 16)) = true := isHex_hexDigit _ (by omega)
    have a0 : isHex '0' = true := by decide
    simp [jsonString, a0, a1, a2]
  · simp [jsonString, h1, h2, h8]

/-- The escaped body of a text, followed by a double quote, is read as the rest of
a string literal. -/
theorem jsonString_body (s rest : Bytes) :
    jsonString 0 (s.flatMap escapeChar ++ '"' :: rest) = some rest := by
  induction s with
  | nil => simp [jsonString]
  | cons c t ih =>
    rw [List.flatMap_cons, List.append_assoc, jsonString_escapeChar]
    exact ih
/-- A decimal digit character is a digit and no minus sign. -/
theorem digitChar_isDigit (k : Nat) (h : k < 10) :
    (Nat.digitChar k).isDigit = true ∧ Nat.digitChar k ≠ '-' := by
  interval_cases k <;> decide

/-- The characters that `toDigitsCore` puts before the accumulator are decimal
digits. -/
theorem toDigitsCore_digits (fuel : Nat) : ∀ (n : Nat) (acc : List Char),
    ∃ ds : List Char, Nat.toDigitsCore 10 fuel n acc = ds ++ acc
      ∧ ∀ c ∈ ds, c.isDigit = true := by
  induction fuel with
  | zero => intro n acc; exact ⟨[], rfl, by simp⟩
  | succ f ih =>
    intro n acc
    simp only [Nat.toDigitsCore]
    have hd := (digitChar_isDigit (n % 10) (Nat.mod_lt _ (by decide))).1
    split_ifs with h0
    · exact ⟨[Nat.digitChar (n % 10)], rfl, by simpa using hd⟩
    · obtain ⟨ds, hds, hall⟩ := ih (n / 10) (Nat.digitChar (n % 10) :: acc)
      refine ⟨ds ++ [Nat.digitChar (n % 10)], by simp [hds], ?_⟩
      intro c hc
      rcases List.mem_append.mp hc with h | h
      · exact hall c h
      · simp at h; rw [h]; exact hd

/-- With enough fuel, the digits of a positive number start with a digit other
than zero. -/
theorem toDigitsCore_head (fuel : Nat) : ∀ (n : Nat) (acc : List Char), 0 < n → n ≤ fuel →
    ∃ (k : Nat) (rest : List Char), 0 < k ∧ k < 10
      ∧ Nat.toDigitsCore 10 fuel n acc = Nat.digitChar k :: rest := by
  induction fuel with
  | zero => intro n acc h1 h2; omega
  | succ f ih =>
    intro n acc hpos hle
    simp only [Nat.toDigitsCore]
    split_ifs with h0
    · have hlt : n < 10 := by
        by_contra hge
        have : 1 ≤ n / 10 := (Nat.le_div_iff_mul_le (by decide)).mpr (by omega)
        omega
      exact ⟨n % 10, acc, by omega, Nat.mod_lt _ (by decide), rfl⟩
    · have hq : 0 < n / 10 := Nat.pos_of_ne_zero h0
      have hqle : n / 10 ≤ f := by
        have : n / 10 < n := Nat.div_lt_self hpos (by decide)
        omega
      exact ih (n / 10) _ hq hqle

/-- The decimal digits of a number: the single digit 0, or a digit other than 0
followed by digits. -/
theorem toDigits_shape (n : Nat) :
    Nat.toDigits 10 n = ['0']
    ∨ ∃ (k : Nat) (rest : List Char), 0 < k ∧ k < 10
        ∧ Nat.toDigits 10 n = Nat.digitChar k :: rest ∧ ∀ c ∈ rest, c.isDigit = true := by
  by_cases h0 : n = 0
  · left; subst h0; rfl
  · right
    obtain ⟨k, rest, hk0, hk10, hrest⟩ :=
      toDigitsCore_head (n + 1) n [] (Nat.pos_of_ne_zero h0) (by omega)
    obtain ⟨ds, hds, hall⟩ := toDigitsCore_digits (n + 1) n []
    refine ⟨k, rest, hk0, hk10, hrest, ?_⟩
    intro c hc
    apply hall
    have : ds = Nat.digitChar k :: rest := by
      rw [← hrest, hds]; simp
    rw [this]
    exact List.mem_cons_of_mem _ hc

/-- The decimal digits of a number, followed by a comma, are read as a JSON number
without sign. -/
theorem jsonUnsigned_toDigits (n : Nat) (Y : Bytes) :
    jsonUnsigned (Nat.toDigits 10 n ++ ',' :: Y) = some (',' :: Y) := by
  rcases toDigits_shape n with h | ⟨k, rest, hk0, hk10, h, hall⟩
  · rw [h]
    simp [jsonUnsigned, jsonFracExp, jsonExp]
  · rw [h]
    have hdrop : (rest ++ ',' :: Y).dropWhile Char.isDigit = ',' :: Y := by
      rw [List.dropWhile_append_of_pos hall]
      simp [List.dropWhile_cons]
    have hdig := (digitChar_isDigit k hk10).1
    have hnz : Nat.digitChar k ≠ '0' := by
      interval_cases k <;> decide
    simp [jsonUnsigned, hnz, hdig, hdrop, jsonFracExp, jsonExp]

/-- The rendering of a code, followed by a comma, is read as a JSON number. -/
theorem jsonNumber_FormatInt (i : Int) (Y : Bytes) :
    jsonNumber (FormatInt i ++ ',' :: Y) = some (',' :: Y) := by
  unfold FormatInt
  split_ifs with hneg
  · simp [jsonNumber, jsonUnsigned_toDigits]
  · have hU := jsonUnsigned_toDigits i.toNat Y
    rcases toDigits_shape i.toNat with h | ⟨k, rest, hk0, hk10, h, hall⟩
    · rw [h] at hU ⊢
      simpa [jsonNumber] using hU
    · rw [h] at hU ⊢
      have hm := (digitChar_isDigit k hk10).2
      simpa [jsonNumber, hm] using hU
/-- The rendering of a code starts with a minus sign or a digit. -/
theorem FormatInt_head (i : Int) :
    ∃ (c : Char) (rest : Bytes), FormatInt i = c :: rest ∧ (c = '-' ∨ c.isDigit = true) := by
  unfold FormatInt
  split_ifs with hneg
  · exact ⟨'-', _, rfl, Or.inl rfl⟩
  · rcases toDigits_shape i.toNat with h | ⟨k, rest, hk0, hk10, h, hall⟩
    · exact ⟨'0', [], h, Or.inr (by decide)⟩
    · exact ⟨_, rest, h, Or.inr (digitChar_isDigit k hk10).1⟩

/-- The rendering of a code, followed by a comma, is read as a JSON value. -/
theorem jsonParse_FormatInt (f : Nat) (i : Int) (Y : Bytes) :
    jsonParse (f + 1) JsonPart.value (FormatInt i ++ ',' :: Y) = some (',' :: Y) := by
  have hnum := jsonNumber_FormatInt i Y
  obtain ⟨c, rest, hc, hhead⟩ := FormatInt_head i
  rw [hc] at hnum ⊢
  have h1 : c ≠ '{' := by rintro rfl; revert hhead; decide
  have h2 : c ≠ '[' := by rintro rfl; revert hhead; decide
  have h3 : c ≠ '"' := by rintro rfl; revert hhead; decide
  have h4 : c ≠ 't' := by rintro rfl; revert hhead; decide
  have h5 : c ≠ 'f' := by rintro rfl; revert hhead; decide
  have h6 : c ≠ 'n' := by rintro rfl; revert hhead; decide
  have t1 : "true".toList = ['t', 'r', 'u', 'e'] := rfl
  have t2 : "false".toList = ['f', 'a', 'l', 's', 'e'] := rfl
  have t3 : "null".toList = ['n', 'u', 'l', 'l'] := rfl
  rw [List.cons_append] at hnum ⊢
  simp only [jsonParse, h1, h2, h3, if_false, t1, t2, t3, List.take_succ_cons, List.cons.injEq,
    h4, h5, h6, false_and]
  exact hnum

/-- One member of an object: a key, a colon and a value that is followed by a comma
or by the closing brace. -/
theorem jsonParse_member (f : Nat) (key V : Bytes) (e : Char) (r4 : Bytes)
    (hV : skipWs V = V) (hval : jsonParse f JsonPart.value V = some (e :: r4))
    (he : isWs e = false) :
    jsonParse (f + 1) JsonPart.members ('"' :: (key.flatMap escapeChar ++ '"' :: ':' :: V))
      = if e = ',' then jsonParse f JsonPart.members (skipWs r4)
        else if e = '}' then some r4 else none := by
  have hcolon : skipWs (':' :: V) = ':' :: V := by
    simp [skipWs, List.dropWhile_cons, isWs]
  have hres : skipWs (e :: r4) = e :: r4 := by
    simp [skipWs, List.dropWhile_cons, he]
  simp only [jsonParse, if_true, jsonString_body, hcolon, hV, hval, hres]

/-- The member `"data":{}` and the closing brace end an object. -/
theorem jsonParse_data (f : Nat) :
    jsonParse (f + 2) JsonPart.members ("\"data\":\x7b\x7d\x7d".toList) = some [] := by
  have hkey : "\"data\":\x7b\x7d\x7d".toList
      = '"' :: ("data".toList.flatMap escapeChar ++ '"' :: ':' :: ['{', '}', '}']) := by decide
  have hval : jsonParse (f + 1) JsonPart.value ['{', '}', '}'] = some ['}'] := by
    simp [jsonParse, skipWs, isWs]
  rw [hkey, jsonParse_member (f + 1) _ _ '}' [] (by decide) hval (by decide)]
  simp

/-- The member `"error_msg"` with an escaped message and a comma: the scan goes on
with the members after the comma. -/
theorem jsonParse_msg (f : Nat) (msg T : Bytes) (hT : skipWs T = T) :
    jsonParse (f + 3) JsonPart.members ("\"error_msg\":".toList ++ ToJsonStr msg ++ ',' :: T)
      = jsonParse (f + 2) JsonPart.members T := by
  have hkey : "\"error_msg\":".toList ++ ToJsonStr msg ++ ',' :: T
      = '"' :: ("error_msg".toList.flatMap escapeChar ++ '"' :: ':' ::
          ('"' :: (msg.flatMap escapeChar ++ '"' :: ',' :: T))) := by
    have h1 : "\"error_msg\":".toList
        = '"' :: ("error_msg".toList.flatMap escapeChar ++ ['"', ':']) := by decide
    rw [h1, ToJsonStr]
    simp
  have hval : jsonParse (f + 2) JsonPart.value ('"' :: (msg.flatMap escapeChar ++ '"' :: ',' :: T))
      = some (',' :: T) := by
    simp only [jsonParse]
    simp [jsonString_body]
  rw [hkey, jsonParse_member (f + 2) _ _ ',' _ (by simp [skipWs, isWs]) hval (by decide)]
  simp only [if_true, hT]

/-- An object that opens with the bare word `reason` is no JSON value. -/
theorem jsonParse_bare_key (f : Nat) (Z : Bytes) :
    jsonParse f JsonPart.value ("\x7breason:".toList ++ Z) = none := by
  have hZ : "\x7breason:".toList ++ Z = '{' :: 'r' :: ("eason:".toList ++ Z) := rfl
  have hws : skipWs ('r' :: ("eason:".toList ++ Z)) = 'r' :: ("eason:".toList ++ Z) := by
    simp [skipWs, List.dropWhile_cons, isWs]
  rw [hZ]
  cases f with
  | zero => rfl
  | succ g =>
    rw [jsonParse]
    simp only [if_true, hws]
    cases g with
    | zero => simp [jsonParse]
    | succ k => simp [jsonParse]

/-- A member whose value is no JSON value ends no object. -/
theorem jsonParse_member_none (f : Nat) (key V : Bytes) (hV : skipWs V = V)
    (hval : jsonParse f JsonPart.value V = none) :
    jsonParse (f + 1) JsonPart.members ('"' :: (key.flatMap escapeChar ++ '"' :: ':' :: V))
      = none := by
  have hcolon : skipWs (':' :: V) = ':' :: V := by
    simp [skipWs, List.dropWhile_cons, isWs]
  simp only [jsonParse, if_true, jsonString_body, hcolon, hV, hval]

/-- The member `"data"` whose object opens with the bare word `reason` ends no
object. -/
theorem jsonParse_data_bare (f : Nat) (Z : Bytes) :
    jsonParse (f + 1) JsonPart.members ("\"data\":\x7breason:".toList ++ Z) = none := by
  have hkey : "\"data\":\x7breason:".toList ++ Z
      = '"' :: ("data".toList.flatMap escapeChar ++ '"' :: ':' :: ("\x7breason:".toList ++ Z)) := by
    have h1 : "\"data\":\x7breason:".toList
        = '"' :: ("data".toList.flatMap escapeChar ++ '"' :: ':' :: "\x7breason:".toList) := by
      decide
    rw [h1]
    simp
  have hV : skipWs ("\x7breason:".toList ++ Z) = "\x7breason:".toList ++ Z := by
    have hZ : "\x7breason:".toList ++ Z = '{' :: ("reason:".toList ++ Z) := rfl
    rw [hZ]
    simp [skipWs, List.dropWhile_cons, isWs]
  rw [hkey, jsonParse_member_none f _ _ hV (jsonParse_bare_key f Z)]

/-- The member `"error_code"` with a rendered code and a comma: the scan goes on
with the members after the comma. -/
theorem jsonParse_code (f : Nat) (code : Int) (T : Bytes) (hT : skipWs T = T) :
    jsonParse (f + 4) JsonPart.members ("\"error_code\":".toList ++ (FormatInt code ++ ',' :: T))
      = jsonParse (f + 3) JsonPart.members T := by
  have hkey : "\"error_code\":".toList ++ (FormatInt code ++ ',' :: T)
      = '"' :: ("error_code".toList.flatMap escapeChar ++ '"' :: ':' ::
          (FormatInt code ++ ',' :: T)) := by
    have h1 : "\"error_code\":".toList
        = '"' :: ("error_code".toList.flatMap escapeChar ++ ['"', ':']) := by decide
    rw [h1]
    simp
  have hV : skipWs (FormatInt code ++ ',' :: T) = FormatInt code ++ ',' :: T := by
    obtain ⟨c, rest, hc, hhead⟩ := FormatInt_head code
    have hws : isWs c = false := by
      rcases hhead with h | h
      · rw [h]; decide
      · by_contra hw
        have hw2 : isWs c = true := by simpa using hw
        simp only [isWs, Bool.or_eq_true, decide_eq_true_eq] at hw2
        rcases hw2 with ((h1 | h1) | h1) | h1 <;> (rw [h1] at h; revert h; decide)
    rw [hc]
    simp [skipWs, List.dropWhile_cons, hws]
  rw [hkey, jsonParse_member (f + 3) _ _ ',' T hV (jsonParse_FormatInt (f + 2) code T)
    (by decide)]
  simp only [if_true, hT]

/-- A text that opens with a brace and a double quote is a JSON object exactly when
its members end the object with nothing but whitespace after it. -/
theorem isJsonObject_members (X : Bytes) (f : Nat) (hlen : X.length = f + 3)
    (hq : ∃ X1, X = '"' :: X1) :
    isJsonObject ('{' :: X)
      = match jsonParse (f + 4) JsonPart.members X with
        | some r => (skipWs r).isEmpty
        | none => false := by
  obtain ⟨X1, rfl⟩ := hq
  have hfuel : ('{' :: '"' :: X1).length + 1 = (f + 4) + 1 := by
    simp only [List.length_cons] at hlen ⊢
    omega
  have hws1 : skipWs ('{' :: '"' :: X1) = '{' :: '"' :: X1 := by
    simp [skipWs, List.dropWhile_cons, isWs]
  have hws2 : skipWs ('"' :: X1) = '"' :: X1 := by
    simp [skipWs, List.dropWhile_cons, isWs]
  have hval : jsonParse (f + 4 + 1) JsonPart.value ('{' :: '"' :: X1)
      = jsonParse (f + 4) JsonPart.members ('"' :: X1) := by
    rw [jsonParse]
    simp [hws2]
  unfold isJsonObject
  rw [hfuel, hws1]
  simp only [if_true, hval]

/-- The text after the opening brace of the encoder's output is long enough for the
fuel of the recogniser. -/
theorem code_member_length (code : Int) (T : Bytes) :
    ∃ f, ("\"error_code\":".toList ++ (FormatInt code ++ ',' :: T)).length = f + 3 := by
  refine ⟨("\"error_code\":".toList ++ (FormatInt code ++ ',' :: T)).length - 3, ?_⟩
  have h13 : ("\"error_code\":".toList).length = 13 := by decide
  have : 13 ≤ ("\"error_code\":".toList ++ (FormatInt code ++ ',' :: T)).length := by
    rw [List.length_append]
    omega
  omega

/-- The encoder's output, from the `error_code` member on, with the message member
when there is a message and `tail` for the rest. -/
theorem MarshalJSON_members (code : Int) (msg reason : Bytes) :
    (MarshalJSON (some (NewRerror code msg reason))).1
      = '{' :: ("\"error_code\":".toList ++ (FormatInt code ++ ',' ::
          ((if msg = [] then [] else "\"error_msg\":".toList ++ ToJsonStr msg ++ [','])
            ++ (if reason = [] then "\"data\":\x7b\x7d\x7d".toList
                else "\"data\":\x7breason:".toList ++ (ToJsonStr reason ++ ['}', '}']))))) := by
  have hA : reA = '{' :: "\"error_code\":".toList := by decide
  have hB : reB = ',' :: "\"error_msg\":".toList := by decide
  have hC : reC = ',' :: "\"data\":\x7breason:".toList := by decide
  have hD : reD = ',' :: "\"data\":\x7b\x7d".toList := by decide
  have hD2 : "\"data\":\x7b\x7d".toList ++ ['}'] = "\"data\":\x7b\x7d\x7d".toList := by decide
  cases msg <;> cases reason <;>
    simp [MarshalJSON, NewRerror, hA, hB, hC, hD, ← hD2]

/-- For every code and message, the encoder's output for a record without a reason
is a well-formed JSON object. -/
theorem isJsonObject_noReason (code : Int) (msg : Bytes) :
    isJsonObject (MarshalJSON (some (NewRerror code msg []))).1 = true := by
  have hws : skipWs ("\"data\":\x7b\x7d\x7d".toList) = "\"data\":\x7b\x7d\x7d".toList := by decide
  rw [MarshalJSON_members]
  obtain ⟨f, hf⟩ := code_member_length code
    ((if msg = [] then [] else "\"error_msg\":".toList ++ ToJsonStr msg ++ [','])
      ++ (if ([] : Bytes) = [] then "\"data\":\x7b\x7d\x7d".toList
          else "\"data\":\x7breason:".toList ++ (ToJsonStr [] ++ ['}', '}'])))
  rw [isJsonObject_members _ f hf ⟨_, rfl⟩]
  by_cases hm : msg = []
  · simp only [hm, if_true, List.nil_append]
    rw [jsonParse_code f code _ hws, jsonParse_data (f + 1)]
    rfl
  · simp only [hm, if_false, if_true, List.append_assoc, List.singleton_append]
    have hmsg := jsonParse_msg f msg "\"data\":\x7b\x7d\x7d".toList hws
    simp only [List.append_assoc] at hmsg ⊢
    rw [jsonParse_code f code _ (by simp [skipWs, List.dropWhile_cons, isWs]), hmsg,
      jsonParse_data f]
    rfl

/-- For every code and message, the encoder's output for a record with a reason is
not a well-formed JSON object: the key `reason` is not a string literal. -/
theorem isJsonObject_withReason (code : Int) (msg : Bytes) (x : Char) (xs : Bytes) :
    isJsonObject (MarshalJSON (some (NewRerror code msg (x :: xs)))).1 = false := by
  have hws : ∀ Z : Bytes, skipWs ("\"data\":\x7breason:".toList ++ Z)
      = "\"data\":\x7breason:".toList ++ Z := by
    intro Z
    have hZ : "\"data\":\x7breason:".toList ++ Z = '"' :: ("data\":\x7breason:".toList ++ Z) := rfl
    rw [hZ]
    simp [skipWs, List.dropWhile_cons, isWs]
  rw [MarshalJSON_members]
  obtain ⟨f, hf⟩ := code_member_length code
    ((if msg = [] then [] else "\"error_msg\":".toList ++ ToJsonStr msg ++ [','])
      ++ (if x :: xs = [] then "\"data\":\x7b\x7d\x7d".toList
          else "\"data\":\x7breason:".toList ++ (ToJsonStr (x :: xs) ++ ['}', '}'])))
  rw [isJsonObject_members _ f hf ⟨_, rfl⟩]
  have hne : ¬ (x :: xs = []) := List.cons_ne_nil x xs
  by_cases hm : msg = []
  · simp only [hm, hne, if_true, if_false, List.nil_append]
    rw [jsonParse_code f code _ (hws _), jsonParse_data_bare (f + 2)]
  · simp only [hm, hne, if_false, List.append_assoc, List.singleton_append]
    have hmsg := jsonParse_msg f msg
      ("\"data\":\x7breason:".toList ++ (ToJsonStr (x :: xs) ++ ['}', '}'])) (hws _)
    simp only [List.append_assoc] at hmsg ⊢
    rw [jsonParse_code f code _ (by simp [skipWs, List.dropWhile_cons, isWs]), hmsg,
      jsonParse_data_bare (f + 1)]
/-- C4: the bytes the encoder returns for code 400, message "bad request" and reason
"missing field x" are not a well-formed JSON object, the object key `reason`
being no string literal, and so it is for every record with a reason; the bytes
of the prescribed wire format are a JSON object, and so are the bytes returned
for every record without a reason. -/
theorem C4_output_not_json :
    isJsonObject (MarshalJSON (some (NewRerror 400 "bad request".toList "missing field x".toList))).1
      = false
    ∧ isJsonObject
        "\x7b\"error_code\":400,\"error_msg\":\"bad request\",\"data\":\x7b\"reason\":\"missing field x\"\x7d\x7d".toList
      = true
    ∧ (∀ (code : Int) (msg : Bytes) (x : Char) (xs : Bytes),
        isJsonObject (MarshalJSON (some (NewRerror code msg (x :: xs)))).1 = false)
    ∧ (∀ (code : Int) (msg : Bytes),
        isJsonObject (MarshalJSON (some (NewRerror code msg []))).1 = true) := by
  refine ⟨by decide, by decide, ?_, ?_⟩
  · intro code msg x xs
    exact isJsonObject_withReason code msg x xs
  · intro code msg
    exact isJsonObject_noReason code msg

/-! ## The metadata bridge -/

/-- After `setArg`, the first entry under the key holds the new value. -/
theorem find_setArg_same (l : List (Bytes × Bytes)) (key value : Bytes) :
    (setArg l key value).find? (fun kv => kv.1 == key) = some (key, value) := by
  induction l with
  | nil => simp [setArg]
  | cons kv rest ih =>
    by_cases hk : kv.1 = key
    · simp [setArg, hk]
    · simp [setArg, hk, List.find?_cons, ih]

/-- The first entry under another key is the same before and after `setArg`. -/
theorem find_setArg_other (l : List (Bytes × Bytes)) (key value k : Bytes) (hk : k ≠ key) :
    (setArg l key value).find? (fun kv => kv.1 == k) = l.find? (fun kv => kv.1 == k) := by
  induction l with
  | nil =>
    have : ¬ key = k := fun e => hk e.symm
    simp [setArg, List.find?_cons, this]
  | cons kv rest ih =>
    by_cases h1 : kv.1 = key
    · have h2 : ¬ kv.1 = k := fun e => hk (e.symm.trans h1)
      have h3 : ¬ key = k := fun e => hk e.symm
      simp [setArg, h1, List.find?_cons, h3]
    · have hcons : setArg (kv :: rest) key value = kv :: setArg rest key value := by
        simp [setArg, h1]
      rw [hcons]
      by_cases h2 : kv.1 = k
      · simp [List.find?_cons, h2]
      · simp [List.find?_cons, h2, ih]

/-- Whether another key has an entry is the same before and after `setArg`. -/
theorem any_setArg_other (l : List (Bytes × Bytes)) (key value k : Bytes) (hk : k ≠ key) :
    (setArg l key value).any (fun kv => kv.1 == k) = l.any (fun kv => kv.1 == k) := by
  have h3 : ¬ key = k := fun e => hk e.symm
  induction l with
  | nil => simp [setArg, h3]
  | cons kv rest ih =>
    by_cases h1 : kv.1 = key
    · simp [setArg, h1, h3]
    · simp [setArg, h1, ih]

/-- The entries under other keys, in order, are the same before and after
`setArg`. -/
theorem filter_setArg_other (l : List (Bytes × Bytes)) (key value : Bytes) :
    (setArg l key value).filter (fun kv => kv.1 != key) = l.filter (fun kv => kv.1 != key) := by
  induction l with
  | nil => simp [setArg]
  | cons kv rest ih =>
    by_cases h1 : kv.1 = key
    · simp [setArg, h1]
    · simp [setArg, h1, List.filter_cons, ih]

/-- A store without an entry under a key yields the empty byte sequence for it. -/
theorem Peek_of_not_Has (a : Args) (key : Bytes) (h : a.Has key = false) : a.Peek key = [] := by
  have hnone : a.args.find? (fun kv => kv.1 == key) = none := by
    rw [List.find?_eq_none]
    intro kv hkv hp
    have : a.args.any (fun kv => kv.1 == key) = true := List.any_eq_true.mpr ⟨kv, hkv, hp⟩
    simp [Args.Has] at h
    simp at hp
    exact h kv.1 kv.2 (by simpa using hkv) hp
  simp [Args.Peek, hnone]

/-- The encoder returns at least one byte for a record. -/
theorem MarshalJSON_some_ne_nil (r : Rerror) : (MarshalJSON (some r)).1 ≠ [] := by
  simp [MarshalJSON]

/-- C7: attaching code 400, message "bad request" and reason "missing field x" to
an empty store puts the bytes with the unquoted key `reason` under the reserved
key, and extracting them again returns a record with an empty reason; the
record without a reason comes back unchanged. -/
theorem C7_meta_roundtrip_loses_reason :
    (SetToMeta (some (NewRerror 400 "bad request".toList "missing field x".toList))
        { args := [] }).Peek MetaRerror
      = "\x7b\"error_code\":400,\"error_msg\":\"bad request\",\"data\":\x7breason:\"missing field x\"\x7d\x7d".toList
    ∧ (NewRerrorFromMeta gjsonGet
        (SetToMeta (some (NewRerror 400 "bad request".toList "missing field x".toList))
          { args := [] })).1
      = some (NewRerror 400 "bad request".toList [])
    ∧ (NewRerrorFromMeta gjsonGet
        (SetToMeta (some (NewRerror 400 "bad request".toList "missing field x".toList))
          { args := [] })).1
      ≠ some (NewRerror 400 "bad request".toList "missing field x".toList)
    ∧ (NewRerrorFromMeta gjsonGet
        (SetToMeta (some (NewRerror 400 "bad request".toList [])) { args := [] })).1
      = some (NewRerror 400 "bad request".toList []) := by
  refine ⟨by decide, by decide, by decide, by decide⟩

/-- C8: after `SetToMeta` of a record, the value peeked under `X-Reply-Error` is the
encoder's output for the record, whatever the store held there before; every
other key peeks the same value and has an entry exactly when it had one, and the
entries under the other keys are the same list. -/
theorem C8_SetToMeta_sets_reserved_key (r : Rerror) (store : Args) :
    (SetToMeta (some r) store).Peek MetaRerror = (MarshalJSON (some r)).1
    ∧ (SetToMeta (some r) store).Peek "X-Reply-Error".toList = (MarshalJSON (some r)).1
    ∧ (∀ k : Bytes, k ≠ MetaRerror →
        (SetToMeta (some r) store).Peek k = store.Peek k
        ∧ (SetToMeta (some r) store).Has k = store.Has k)
    ∧ (SetToMeta (some r) store).args.filter (fun kv => kv.1 != MetaRerror)
        = store.args.filter (fun kv => kv.1 != MetaRerror) := by
  have hne : ¬ (MarshalJSON (some r)).1.length = 0 := by
    intro h
    exact MarshalJSON_some_ne_nil r (List.length_eq_zero.mp h)
  have hset : SetToMeta (some r) store = store.Set MetaRerror (MarshalJSON (some r)).1 := by
    simp only [SetToMeta, hne, if_false]
  have hpeek : (SetToMeta (some r) store).Peek MetaRerror = (MarshalJSON (some r)).1 := by
    rw [hset]
    simp only [Args.Peek, Args.Set, find_setArg_same]
  refine ⟨hpeek, hpeek, ?_, ?_⟩
  · intro k hk
    rw [hset]
    constructor
    · simp only [Args.Peek, Args.Set, find_setArg_other _ _ _ _ hk]
    · simp only [Args.Has, Args.Set, any_setArg_other _ _ _ _ hk]
  · rw [hset]
    simp only [Args.Set, filter_setArg_other]

/-- Witness of C8: a store that already holds a value under the reserved key and one
under another key. -/
theorem C8_SetToMeta_sets_reserved_key_witness :
    (SetToMeta (some (NewRerror 7 [] []))
        { args := [("k".toList, "v".toList), (MetaRerror, "old".toList)] }).Peek MetaRerror
      = "\x7b\"error_code\":7,\"data\":\x7b\x7d\x7d".toList
    ∧ (SetToMeta (some (NewRerror 7 [] []))
        { args := [("k".toList, "v".toList), (MetaRerror, "old".toList)] }).Peek "k".toList
      = "v".toList :=
  ⟨(C8_SetToMeta_sets_reserved_key (NewRerror 7 [] [])
      { args := [("k".toList, "v".toList), (MetaRerror, "old".toList)] }).1.trans (by decide),
   ((C8_SetToMeta_sets_reserved_key (NewRerror 7 [] [])
      { args := [("k".toList, "v".toList), (MetaRerror, "old".toList)] }).2.2.1
        "k".toList (by decide)).1.trans (by decide)⟩

/-- C9: `NewRerrorFromMeta` returns nil exactly when the store has no entry, or an
entry of length zero, under `X-Reply-Error`; otherwise it returns a record whose
three fields are what `UnmarshalJSON` writes into a new record from the bytes
under the key; the store is the same after the call.  This holds for every path
getter. -/
theorem C9_NewRerrorFromMeta (Get : Bytes → Bytes → Result) (store : Args) :
    ((NewRerrorFromMeta Get store).1 = none
      ↔ (store.Has MetaRerror = false ∨ (store.Peek MetaRerror).length = 0))
    ∧ ((store.Peek MetaRerror).length ≠ 0 →
        (NewRerrorFromMeta Get store).1
            = (UnmarshalJSON Get (some newRerror) (store.Peek MetaRerror)).1
        ∧ (NewRerrorFromMeta Get store).1
            = some { ErrorCode := int32 (Get (store.Peek MetaRerror) "error_code".toList).Int,
                     ErrorMsg := (Get (store.Peek MetaRerror) "error_msg".toList).String,
                     Data := { Reason := (Get (store.Peek MetaRerror) "data.reason".toList).String } })
    ∧ (NewRerrorFromMeta Get store).2 = store := by
  refine ⟨?_, ?_, ?_⟩
  · constructor
    · intro h
      right
      by_contra hlen
      simp [NewRerrorFromMeta, hlen, UnmarshalJSON] at h
    · intro h
      have hlen : (store.Peek MetaRerror).length = 0 := by
        rcases h with h | h
        · rw [Peek_of_not_Has store MetaRerror h]; rfl
        · exact h
      simp [NewRerrorFromMeta, hlen]
  · intro hlen
    simp [NewRerrorFromMeta, hlen, UnmarshalJSON, newRerror]
  · by_cases hlen : (store.Peek MetaRerror).length = 0 <;> simp [NewRerrorFromMeta, hlen]

/-- Witness of C9: a store that holds an encoded record under the reserved key. -/
theorem C9_NewRerrorFromMeta_witness :
    (NewRerrorFromMeta gjsonGet
        { args := [(MetaRerror, "\x7b\"error_code\":7,\"data\":\x7b\x7d\x7d".toList)] }).1
      = some (NewRerror 7 [] []) :=
  ((C9_NewRerrorFromMeta gjsonGet
      { args := [(MetaRerror, "\x7b\"error_code\":7,\"data\":\x7b\x7d\x7d".toList)] }).2.1
        (by decide)).2.trans (by decide)

/-! ## The alias with `error` -/

/-- C10: for an error of a dynamic type other than `*rerror`, `ToRerror` returns a
pointer to a record that has the code and the message of `rerrUnknownError` and
the error's text as its reason. -/
theorem C10_ToRerror_foreign (h : Heap) (s : Nat) (v : Rerror) (text : Bytes)
    (hs : h[s]? = some v) :
    ∃ (h1 : Heap) (p : Nat),
      ToRerror h (some s) (some (GoError.other text)) = some (h1, some p)
      ∧ h1[p]? = some { ErrorCode := v.ErrorCode, ErrorMsg := v.ErrorMsg,
                           Data := { Reason := GoError.Error h (GoError.other text) } }
      ∧ GoError.Error h (GoError.other text) = text := by
  refine ⟨(h ++ [v]).set h.length { v with Data := { v.Data with Reason := text } }, h.length,
    ?_, ?_, rfl⟩
  · simp [ToRerror, hs, Copy, SetReason, GoError.Error]
  · simp [GoError.Error]

/-- Witness of C10: the sentinel is the only cell of the heap. -/
theorem C10_ToRerror_foreign_witness :
    ∃ (h1 : Heap) (p : Nat),
      ToRerror [NewRerror (-1) "Unknown error".toList []] (some 0)
          (some (GoError.other "EOF".toList)) = some (h1, some p)
      ∧ h1[p]? = some { ErrorCode := -1, ErrorMsg := "Unknown error".toList,
                           Data := { Reason := GoError.Error [NewRerror (-1) "Unknown error".toList []]
                                       (GoError.other "EOF".toList) } }
      ∧ GoError.Error [NewRerror (-1) "Unknown error".toList []] (GoError.other "EOF".toList)
          = "EOF".toList :=
  C10_ToRerror_foreign [NewRerror (-1) "Unknown error".toList []] 0
    (NewRerror (-1) "Unknown error".toList []) "EOF".toList rfl

/-! ## The alias in both directions -/

/-- C11: for a non-nil `*Rerror` `r`, `ToRerror(r.ToError())` returns the pointer
`r` itself and leaves every cell of the heap as it was, whatever the record
holds and whatever `rerrUnknownError` is; with all fields zero the result is
still `r` and no copy of the sentinel. -/
theorem C11_ToRerror_ToError (h : Heap) (rerrUnknownError : Option Nat) (r : Nat) :
    ToRerror h rerrUnknownError (ToError (some r)) = some (h, some r)
    ∧ ToRerror [NewRerror (-1) "Unknown error".toList [], newRerror] (some 0) (ToError (some 1))
        = some ([NewRerror (-1) "Unknown error".toList [], newRerror], some 1) := by
  exact ⟨rfl, rfl⟩

/-- C12, as the code has it: `ToError` of a nil `*Rerror` is the nil error and
`ToRerror` of the nil error is a nil `*Rerror`; `ToError` of a non-nil pointer
is a non-nil error; `ToRerror` returns a non-nil pointer for every error
that `ToError` returns for a non-nil pointer and, when `rerrUnknownError` is
allocated, for every error of another dynamic type. -/
theorem C12_absence_preserved (h : Heap) (rerrUnknownError : Option Nat) :
    ToError none = none
    ∧ ToRerror h rerrUnknownError none = some (h, none)
    ∧ (∀ r : Nat, ToError (some r) ≠ none)
    ∧ (∀ r : Nat, ∃ err, ToError (some r) = some err
        ∧ ToRerror h rerrUnknownError (some err) = some (h, some r))
    ∧ (∀ (s : Nat) (v : Rerror) (text : Bytes), h[s]? = some v →
        ∃ (h1 : Heap) (p : Nat),
          ToRerror h (some s) (some (GoError.other text)) = some (h1, some p)) := by
  refine ⟨rfl, rfl, ?_, ?_, ?_⟩
  · intro r hr
    simp [ToError] at hr
  · intro r
    exact ⟨GoError.rerror (some r), rfl, rfl⟩
  · intro s v text hs
    exact ⟨(h ++ [v]).set h.length { v with Data := { v.Data with Reason := text } }, h.length,
      by simp [ToRerror, hs, Copy, SetReason, GoError.Error]⟩

/-- Witness of C12: the sentinel is the only cell of the heap. -/
theorem C12_absence_preserved_witness :
    ∃ (h1 : Heap) (p : Nat),
      ToRerror [NewRerror (-1) "Unknown error".toList []] (some 0)
        (some (GoError.other "EOF".toList)) = some (h1, some p) :=
  (C12_absence_preserved [NewRerror (-1) "Unknown error".toList []] (some 0)).2.2.2.2
    0 (NewRerror (-1) "Unknown error".toList []) "EOF".toList rfl

/-- C12, as stated, fails: an error that is not nil and holds a nil `*rerror` is
turned into a nil `*Rerror`. -/
theorem C12_typed_nil_gives_nil :
    (some (GoError.rerror none) : Option GoError) ≠ none
    ∧ ToRerror [NewRerror (-1) "Unknown error".toList []] (some 0) (some (GoError.rerror none))
        = some ([NewRerror (-1) "Unknown error".toList []], none) := by
  exact ⟨by simp, rfl⟩

/-! ## The decoder -/

/-- The path getter model finds nothing in the empty document. -/
theorem gjsonGet_nil (path : Bytes) : gjsonGet [] path = Result.none := by
  unfold gjsonGet
  cases splitPath path <;> rfl

/-- C13: `UnmarshalJSON` returns the nil error for every path getter, receiver and
byte sequence; on a nil receiver it changes nothing; on a record and the empty
input it leaves code 0, an empty message and an empty reason, for every path
getter that finds nothing in the empty document, as the model `gjsonGet` does. -/
theorem C13_UnmarshalJSON_never_fails :
    (∀ (Get : Bytes → Bytes → Result) (r : Option Rerror) (b : Bytes),
      (UnmarshalJSON Get r b).2 = none)
    ∧ (∀ (Get : Bytes → Bytes → Result) (b : Bytes), (UnmarshalJSON Get none b).1 = none)
    ∧ (∀ (Get : Bytes → Bytes → Result) (r : Rerror),
        (∀ path, Get [] path = { Int := 0, String := [] }) →
        (UnmarshalJSON Get (some r) []).1
          = some { ErrorCode := 0, ErrorMsg := [], Data := { Reason := [] } })
    ∧ (∀ r : Rerror, (UnmarshalJSON gjsonGet (some r) []).1
          = some { ErrorCode := 0, ErrorMsg := [], Data := { Reason := [] } })
    ∧ (∀ r : Rerror, ∃ v, (UnmarshalJSON gjsonGet (some r) "\x7bnot json".toList).1 = some v
        ∧ (UnmarshalJSON gjsonGet (some r) "\x7bnot json".toList).2 = none) := by
  refine ⟨?_, ?_, ?_, ?_, ?_⟩
  · intro Get r b
    cases r <;> rfl
  · intro Get b
    rfl
  · intro Get r hGet
    simp [UnmarshalJSON, hGet, int32]
  · intro r
    simp [UnmarshalJSON, gjsonGet_nil, Result.none, int32]
  · intro r
    exact ⟨_, rfl, rfl⟩

/-- Witness of C13: the model `gjsonGet` on a record that held other values. -/
theorem C13_UnmarshalJSON_never_fails_witness :
    (UnmarshalJSON gjsonGet (some (NewRerror 7 "m".toList "r".toList)) []).1
      = some { ErrorCode := 0, ErrorMsg := [], Data := { Reason := [] } } :=
  C13_UnmarshalJSON_never_fails.2.2.1 gjsonGet (NewRerror 7 "m".toList "r".toList)
    (fun path => gjsonGet_nil path)

/-- C18: after `UnmarshalJSON` two records hold the same three fields whatever they
held before, for every path getter and byte sequence; with the model `gjsonGet`
an input without message and reason resets both to the empty text, and an
input without any field resets the code to 0. -/
theorem C18_UnmarshalJSON_overwrites :
    (∀ (Get : Bytes → Bytes → Result) (b : Bytes) (r1 r2 : Rerror),
      (UnmarshalJSON Get (some r1) b).1 = (UnmarshalJSON Get (some r2) b).1)
    ∧ (∀ (Get : Bytes → Bytes → Result) (b : Bytes) (r : Rerror),
        (UnmarshalJSON Get (some r) b).1
          = some { ErrorCode := int32 (Get b "error_code".toList).Int,
                   ErrorMsg := (Get b "error_msg".toList).String,
                   Data := { Reason := (Get b "data.reason".toList).String } })
    ∧ (∀ r : Rerror,
        (UnmarshalJSON gjsonGet (some r) "\x7b\"error_code\":5,\"data\":\x7b\x7d\x7d".toList).1
          = some { ErrorCode := 5, ErrorMsg := [], Data := { Reason := [] } })
    ∧ (∀ r : Rerror, (UnmarshalJSON gjsonGet (some r) "\x7b\x7d".toList).1
          = some { ErrorCode := 0, ErrorMsg := [], Data := { Reason := [] } }) := by
  have hall : ∀ (Get : Bytes → Bytes → Result) (b : Bytes) (r : Rerror),
      (UnmarshalJSON Get (some r) b).1
        = some { ErrorCode := int32 (Get b "error_code".toList).Int,
                 ErrorMsg := (Get b "error_msg".toList).String,
                 Data := { Reason := (Get b "data.reason".toList).String } } := by
    intro Get b r
    rfl
  refine ⟨?_, hall, ?_, ?_⟩
  · intro Get b r1 r2
    rw [hall, hall]
  · intro r
    rw [hall]
    decide
  · intro r
    rw [hall]
    decide

/-! ## Attaching nothing, and the presence test -/

/-- C14: `SetToMeta` on a nil `*Rerror` returns the store as it was: the same
entries, so no key is added and a value under `X-Reply-Error` is kept. -/
theorem C14_SetToMeta_nil (store : Args) :
    SetToMeta none store = store
    ∧ (∀ k : Bytes, (SetToMeta none store).Peek k = store.Peek k
        ∧ (SetToMeta none store).Has k = store.Has k)
    ∧ (SetToMeta none { args := [(MetaRerror, "old".toList)] }).Peek MetaRerror = "old".toList := by
  have h : SetToMeta none store = store := rfl
  refine ⟨h, ?_, by decide⟩
  intro k
  rw [h]
  exact ⟨rfl, rfl⟩

/-- After `setArg` the key has an entry. -/
theorem any_setArg_same (l : List (Bytes × Bytes)) (key value : Bytes) :
    (setArg l key value).any (fun kv => kv.1 == key) = true := by
  induction l with
  | nil => simp [setArg]
  | cons kv rest ih =>
    by_cases h1 : kv.1 = key
    · simp [setArg, h1]
    · simp only [setArg, h1, if_false, List.any_cons, ih, Bool.or_true]

/-- C15: `hasRerror` is false for every store without an entry under
`X-Reply-Error`, the new store among them, and true after `SetToMeta` of any
record, whatever the store held. -/
theorem C15_hasRerror (store : Args) :
    ((∀ kv ∈ store.args, kv.1 ≠ MetaRerror) → hasRerror store = false)
    ∧ hasRerror { args := [] } = false
    ∧ (∀ r : Rerror, hasRerror (SetToMeta (some r) store) = true)
    ∧ (∀ code message reason, hasRerror (SetToMeta (some (NewRerror code message reason)) store)
        = true) := by
  have hset : ∀ r : Rerror, hasRerror (SetToMeta (some r) store) = true := by
    intro r
    have hne : ¬ (MarshalJSON (some r)).1.length = 0 := by
      intro h
      exact MarshalJSON_some_ne_nil r (List.length_eq_zero.mp h)
    simp only [hasRerror, SetToMeta, hne, if_false, Args.Has, Args.Set, any_setArg_same]
  refine ⟨?_, rfl, hset, fun code message reason => hset _⟩
  intro hno
  simp only [hasRerror, Args.Has]
  rw [List.any_eq_false]
  intro kv hkv
  simpa using hno kv hkv

/-- Witness of C15: a store that holds one entry under another key. -/
theorem C15_hasRerror_witness :
    hasRerror { args := [("k".toList, "v".toList)] } = false :=
  (C15_hasRerror { args := [("k".toList, "v".toList)] }).1 (by decide)

/-! ## Rendering -/

/-- C16: for a non-nil `*Rerror` the text of the error that `ToError` returns is the
encoder's output for the record, and `String` returns the same text; `String`
of a nil `*Rerror` is `<nil>`. -/
theorem C16_rendering (h : Heap) (r : Nat) (v : Rerror) (hr : h[r]? = some v) :
    (∃ err, ToError (some r) = some err ∧ GoError.Error h err = (MarshalJSON (some v)).1)
    ∧ Rerror.String (some v) = (MarshalJSON (some v)).1
    ∧ Rerror.String none = "<nil>".toList := by
  refine ⟨⟨GoError.rerror (some r), rfl, ?_⟩, rfl, rfl⟩
  simp [GoError.Error, toRerror, hr]

/-- Witness of C16: the record of code 500 without message and reason. -/
theorem C16_rendering_witness :
    (∃ err, ToError (some 0) = some err
      ∧ GoError.Error [NewRerror 500 [] []] err = (MarshalJSON (some (NewRerror 500 [] []))).1)
    ∧ Rerror.String (some (NewRerror 500 [] [])) = (MarshalJSON (some (NewRerror 500 [] []))).1
    ∧ Rerror.String none = "<nil>".toList :=
  C16_rendering [NewRerror 500 [] []] 0 (NewRerror 500 [] []) rfl

/-! ## The sentinel, the constructor and the setters -/

/-- C17: `ToRerror` of an error of another dynamic type leaves the cell of
`rerrUnknownError`, and every other cell, as it was and returns a pointer to a
new cell; a second call with another text returns a second new cell, and each
of the two cells holds the sentinel's code and message and its own text as the
reason. -/
theorem C17_sentinel_unchanged (h : Heap) (s : Nat) (v : Rerror) (t1 t2 : Bytes)
    (hs : h[s]? = some v) :
    ∃ (h1 h2 : Heap) (p1 p2 : Nat),
      ToRerror h (some s) (some (GoError.other t1)) = some (h1, some p1)
      ∧ ToRerror h1 (some s) (some (GoError.other t2)) = some (h2, some p2)
      ∧ p1 ≠ s ∧ p2 ≠ s ∧ p1 ≠ p2
      ∧ h1[s]? = some v ∧ h2[s]? = some v
      ∧ (∀ q : Nat, q < h.length → h1[q]? = h[q]? ∧ h2[q]? = h[q]?)
      ∧ h1[p1]? = some { ErrorCode := v.ErrorCode, ErrorMsg := v.ErrorMsg, Data := { Reason := t1 } }
      ∧ h2[p1]? = some { ErrorCode := v.ErrorCode, ErrorMsg := v.ErrorMsg, Data := { Reason := t1 } }
      ∧ h2[p2]? = some { ErrorCode := v.ErrorCode, ErrorMsg := v.ErrorMsg, Data := { Reason := t2 } } := by
  have hlt : s < h.length := by
    by_contra hge
    have : h[s]? = none := List.getElem?_eq_none (by omega)
    rw [this] at hs
    exact Option.noConfusion hs
  have hcall : ∀ (g : Heap) (t : Bytes), g[s]? = some v →
      ToRerror g (some s) (some (GoError.other t))
        = some (g ++ [NewRerror v.ErrorCode v.ErrorMsg t], some g.length) := by
    intro g t hg
    simp [ToRerror, hg, Copy, SetReason, GoError.Error, NewRerror]
  have hs1 : (h ++ [NewRerror v.ErrorCode v.ErrorMsg t1])[s]? = some v := by
    rw [List.getElem?_append_left hlt]
    exact hs
  have hlen1 : (h ++ [NewRerror v.ErrorCode v.ErrorMsg t1]).length = h.length + 1 := by simp
  refine ⟨h ++ [NewRerror v.ErrorCode v.ErrorMsg t1],
    (h ++ [NewRerror v.ErrorCode v.ErrorMsg t1]) ++ [NewRerror v.ErrorCode v.ErrorMsg t2],
    h.length, h.length + 1, hcall h t1 hs, ?_, by omega, by omega, by omega, hs1, ?_,
    ?_, ?_, ?_, ?_⟩
  · rw [hcall _ t2 hs1, hlen1]
  · rw [List.getElem?_append_left (by omega)]
    exact hs1
  · intro q hq
    constructor
    · rw [List.getElem?_append_left hq]
    · rw [List.getElem?_append_left (by omega), List.getElem?_append_left hq]
  · simp [NewRerror]
  · rw [List.getElem?_append_left (by omega)]
    simp [NewRerror]
  · rw [List.getElem?_append_right (by omega)]
    simp [NewRerror]

/-- Witness of C17: the sentinel is the only cell of the heap. -/
theorem C17_sentinel_unchanged_witness :
    ∃ (h1 h2 : Heap) (p1 p2 : Nat),
      ToRerror [NewRerror (-1) "Unknown error".toList []] (some 0)
          (some (GoError.other "EOF".toList)) = some (h1, some p1)
      ∧ ToRerror h1 (some 0) (some (GoError.other "timeout".toList)) = some (h2, some p2)
      ∧ p1 ≠ 0 ∧ p2 ≠ 0 ∧ p1 ≠ p2
      ∧ h1[0]? = some (NewRerror (-1) "Unknown error".toList [])
      ∧ h2[0]? = some (NewRerror (-1) "Unknown error".toList [])
      ∧ (∀ q : Nat, q < [NewRerror (-1) "Unknown error".toList []].length →
          h1[q]? = [NewRerror (-1) "Unknown error".toList []][q]?
          ∧ h2[q]? = [NewRerror (-1) "Unknown error".toList []][q]?)
      ∧ h1[p1]? = some { ErrorCode := -1, ErrorMsg := "Unknown error".toList,
                          Data := { Reason := "EOF".toList } }
      ∧ h2[p1]? = some { ErrorCode := -1, ErrorMsg := "Unknown error".toList,
                          Data := { Reason := "EOF".toList } }
      ∧ h2[p2]? = some { ErrorCode := -1, ErrorMsg := "Unknown error".toList,
                          Data := { Reason := "timeout".toList } } :=
  C17_sentinel_unchanged [NewRerror (-1) "Unknown error".toList []] 0
    (NewRerror (-1) "Unknown error".toList []) "EOF".toList "timeout".toList rfl

/-- C20: `NewRerror` returns a pointer to a new cell that holds exactly the code,
message and reason given, and leaves the other cells as they were;
`SetMessage` on a non-nil pointer writes the message, keeps the code and the
reason of the record, leaves every other cell as it was and returns the same
pointer; `SetReason` does the same for the reason. -/
theorem C20_constructor_and_setters (h : Heap) (r : Nat) (v : Rerror) (code : Int)
    (message reason m s : Bytes) (hr : h[r]? = some v) :
    (∃ (h1 : Heap) (p : Nat), NewRerrorOn h code message reason = (h1, some p)
      ∧ h1[p]? = some { ErrorCode := code, ErrorMsg := message, Data := { Reason := reason } }
      ∧ ∀ q : Nat, q < h.length → h1[q]? = h[q]?)
    ∧ NewRerror code message reason
        = { ErrorCode := code, ErrorMsg := message, Data := { Reason := reason } }
    ∧ (∃ h1 : Heap, SetMessage h (some r) m = some (h1, some r)
      ∧ h1[r]? = some { ErrorCode := v.ErrorCode, ErrorMsg := m, Data := { Reason := v.Data.Reason } }
      ∧ ∀ q : Nat, q ≠ r → h1[q]? = h[q]?)
    ∧ (∃ h1 : Heap, SetReason h (some r) s = some (h1, some r)
      ∧ h1[r]? = some { ErrorCode := v.ErrorCode, ErrorMsg := v.ErrorMsg, Data := { Reason := s } }
      ∧ ∀ q : Nat, q ≠ r → h1[q]? = h[q]?) := by
  have hlt : r < h.length := by
    by_contra hge
    have : h[r]? = none := List.getElem?_eq_none (by omega)
    rw [this] at hr
    exact Option.noConfusion hr
  refine ⟨⟨_, h.length, rfl, by simp, ?_⟩, rfl, ⟨_, by simp [SetMessage, hr]; rfl, ?_, ?_⟩,
    ⟨_, by simp [SetReason, hr]; rfl, ?_, ?_⟩⟩
  · intro q hq
    rw [List.getElem?_append_left hq]
  · simp [List.getElem?_set, hlt]
  · intro q hq
    rw [List.getElem?_set_ne (fun e => hq e.symm)]
  · simp [List.getElem?_set, hlt]
  · intro q hq
    rw [List.getElem?_set_ne (fun e => hq e.symm)]

/-- Witness of C20: a heap of one record, whose message and reason are set. -/
theorem C20_constructor_and_setters_witness :
    (∃ h1 : Heap, SetMessage [NewRerror 7 "old".toList "why".toList] (some 0) "new".toList
        = some (h1, some 0)
      ∧ h1[0]? = some { ErrorCode := 7, ErrorMsg := "new".toList, Data := { Reason := "why".toList } }
      ∧ ∀ q : Nat, q ≠ 0 → h1[q]? = [NewRerror 7 "old".toList "why".toList][q]?)
    ∧ (∃ h1 : Heap, SetReason [NewRerror 7 "old".toList "why".toList] (some 0) "because".toList
        = some (h1, some 0)
      ∧ h1[0]? = some { ErrorCode := 7, ErrorMsg := "old".toList, Data := { Reason := "because".toList } }
      ∧ ∀ q : Nat, q ≠ 0 → h1[q]? = [NewRerror 7 "old".toList "why".toList][q]?) :=
  (C20_constructor_and_setters [NewRerror 7 "old".toList "why".toList] 0
    (NewRerror 7 "old".toList "why".toList) 0 [] [] "new".toList "because".toList rfl).2.2

/-! ## Injectivity of the encoder -/

/-- Reading a run of digits and one more digit. -/
theorem parseDigits_snoc (xs : Bytes) (c : Char) (hc : c.isDigit = true) :
    ∀ (a v : Nat), parseDigits a xs = some v →
      parseDigits a (xs ++ [c]) = some (v * 10 + (c.toNat - '0'.toNat)) := by
  induction xs with
  | nil =>
    intro a v h
    simp only [parseDigits, Option.some.injEq] at h
    simp [parseDigits, hc, h]
  | cons x rest ih =>
    intro a v h
    simp only [List.cons_append, parseDigits] at h ⊢
    split_ifs at h ⊢ with hx
    exact ih _ _ h

/-- A decimal digit character spells its digit. -/
theorem digitChar_value (k : Nat) (h : k < 10) :
    (Nat.digitChar k).toNat - '0'.toNat = k := by
  interval_cases k <;> decide

/-- With enough fuel, the digits that `toDigitsCore` puts before the accumulator
spell the number. -/
theorem toDigitsCore_value (fuel : Nat) : ∀ (n : Nat) (acc : List Char), n < fuel →
    ∃ ds : List Char, Nat.toDigitsCore 10 fuel n acc = ds ++ acc ∧ parseDigits 0 ds = some n := by
  induction fuel with
  | zero => intro n acc h; omega
  | succ f ih =>
    intro n acc hn
    simp only [Nat.toDigitsCore]
    have hmod : n % 10 < 10 := Nat.mod_lt _ (by decide)
    have hd := (digitChar_isDigit (n % 10) hmod).1
    split_ifs with h0
    · refine ⟨[Nat.digitChar (n % 10)], rfl, ?_⟩
      have hlt : n < 10 := by
        by_contra hge
        have : 1 ≤ n / 10 := (Nat.le_div_iff_mul_le (by decide)).mpr (by omega)
        omega
      simp only [parseDigits, hd, if_true, digitChar_value _ hmod]
      congr 1
      omega
    · have hq : n / 10 < f := by
        have : n / 10 < n := Nat.div_lt_self (by omega) (by decide)
        omega
      obtain ⟨ds, hds, hval⟩ := ih (n / 10) (Nat.digitChar (n % 10) :: acc) hq
      refine ⟨ds ++ [Nat.digitChar (n % 10)], by simp [hds], ?_⟩
      rw [parseDigits_snoc ds _ hd 0 _ hval, digitChar_value _ hmod]
      congr 1
      omega

/-- The decimal digits of a number spell the number. -/
theorem parseDigits_toDigits (n : Nat) : parseDigits 0 (Nat.toDigits 10 n) = some n := by
  obtain ⟨ds, hds, hval⟩ := toDigitsCore_value (n + 1) n [] (by omega)
  have : Nat.toDigits 10 n = ds := by
    simpa using hds
  rw [this]
  exact hval

/-- The digits of a number do not start with a minus sign. -/
theorem toDigits_head_ne_minus (n : Nat) (rest : Bytes) : Nat.toDigits 10 n ≠ '-' :: rest := by
  intro h
  rcases toDigits_shape n with h0 | ⟨k, r, hk0, hk10, hk, hall⟩
  · rw [h0] at h
    exact absurd (List.cons.inj h).1 (by decide)
  · rw [hk] at h
    exact (digitChar_isDigit k hk10).2 (List.cons.inj h).1

/-- Two codes with the same decimal rendering are equal. -/
theorem FormatInt_injective (a b : Int) (h : FormatInt a = FormatInt b) : a = b := by
  unfold FormatInt at h
  split_ifs at h with ha hb hb
  · have hd := (List.cons.inj h).2
    have hv := congrArg (parseDigits 0) hd
    rw [parseDigits_toDigits, parseDigits_toDigits] at hv
    have := Option.some.inj hv
    omega
  · exact absurd h.symm (toDigits_head_ne_minus _ _)
  · exact absurd h (toDigits_head_ne_minus _ _)
  · have hv := congrArg (parseDigits 0) h
    rw [parseDigits_toDigits, parseDigits_toDigits] at hv
    have := Option.some.inj hv
    omega

/-- Two texts without a comma, each followed by a comma and more text, are equal
together exactly when their parts are. -/
theorem split_at_comma (a : Bytes) : ∀ (b x y : Bytes), (∀ c ∈ a, c ≠ ',') → (∀ c ∈ b, c ≠ ',') →
    a ++ ',' :: x = b ++ ',' :: y → a = b ∧ x = y := by
  induction a with
  | nil =>
    intro b x y _ hb h
    cases b with
    | nil => exact ⟨rfl, (List.cons.inj h).2⟩
    | cons d rest =>
      have := (List.cons.inj h).1
      exact absurd this.symm (hb d (List.mem_cons_self _ _))
  | cons c rest ih =>
    intro b x y ha hb h
    cases b with
    | nil =>
      have := (List.cons.inj h).1
      exact absurd this (ha c (List.mem_cons_self _ _))
    | cons d rest2 =>
      obtain ⟨h1, h2⟩ := List.cons.inj h
      obtain ⟨h3, h4⟩ := ih rest2 x y (fun e he => ha e (List.mem_cons_of_mem _ he))
        (fun e he => hb e (List.mem_cons_of_mem _ he)) h2
      exact ⟨by rw [h1, h3], h4⟩

/-- The value of a hexadecimal digit character is its digit. -/
theorem hexVal_hexDigit (k : Nat) (h : k < 16) : hexVal (hexDigit k) = k := by
  interval_cases k <;> decide

/-- The escape of a character is read back as the character. -/
theorem unescapeHead_escapeChar (c : Char) (X : Bytes) :
    unescapeHead (escapeChar c ++ X) = some (c, X) := by
  unfold escapeChar
  split_ifs with h1 h2 h3 h4 h5 h6 h7 h8
  · simp [unescapeHead, h1]
  · simp [unescapeHead, h2]
  · simp [unescapeHead, h3]
  · simp [unescapeHead, h4]
  · simp [unescapeHead, h5]
  · simp [unescapeHead, h6]
  · simp [unescapeHead, h7]
  · have a0 : hexVal '0' = 0 := by decide
    have a1 := hexVal_hexDigit (c.toNat / 16) (by omega)
    have a2 := hexVal_hexDigit (c.toNat % 16) (by omega)
    have hsum : c.toNat / 16 * 16 + c.toNat % 16 = c.toNat := by omega
    simp [unescapeHead, a0, a1, a2, hsum]
  · simp [unescapeHead, h2]

/-- Two texts with the same escaped body are equal. -/
theorem escape_injective (s : Bytes) : ∀ t : Bytes,
    s.flatMap escapeChar = t.flatMap escapeChar → s = t := by
  induction s with
  | nil =>
    intro t h
    cases t with
    | nil => rfl
    | cons d rest =>
      have hv := congrArg unescapeHead h
      rw [List.flatMap_cons, unescapeHead_escapeChar] at hv
      simp [unescapeHead] at hv
  | cons c rest ih =>
    intro t h
    cases t with
    | nil =>
      have hv := congrArg unescapeHead h
      rw [List.flatMap_cons, unescapeHead_escapeChar] at hv
      simp [unescapeHead] at hv
    | cons d rest2 =>
      have hv := congrArg unescapeHead h
      rw [List.flatMap_cons, List.flatMap_cons, unescapeHead_escapeChar,
        unescapeHead_escapeChar] at hv
      obtain ⟨h1, h2⟩ := Prod.mk.inj (Option.some.inj hv)
      rw [h1, ih rest2 h2]

/-- Two quoted literals, each followed by more text, are equal together exactly
when the texts they quote and what follows them are. -/
theorem ToJsonStr_split (s t X Y : Bytes) (h : ToJsonStr s ++ X = ToJsonStr t ++ Y) :
    s = t ∧ X = Y := by
  have hs : ∀ (u Z : Bytes), ToJsonStr u ++ Z = '"' :: (u.flatMap escapeChar ++ '"' :: Z) := by
    intro u Z
    simp [ToJsonStr]
  rw [hs, hs] at h
  have hb := (List.cons.inj h).2
  have hrest := congrArg (jsonString 0) hb
  rw [jsonString_body, jsonString_body] at hrest
  have hXY : X = Y := Option.some.inj hrest
  rw [hXY] at hb
  exact ⟨escape_injective s t (List.append_cancel_right hb), hXY⟩

/-- Two reasons with the same `data` member are equal. -/
theorem data_member_injective (r1 r2 : Bytes)
    (h : (if r1 = [] then "\"data\":\x7b\x7d\x7d".toList
            else "\"data\":\x7breason:".toList ++ (ToJsonStr r1 ++ ['}', '}']))
        = (if r2 = [] then "\"data\":\x7b\x7d\x7d".toList
            else "\"data\":\x7breason:".toList ++ (ToJsonStr r2 ++ ['}', '}']))) :
    r1 = r2 := by
  have hA : "\"data\":\x7b\x7d\x7d".toList = "\"data\":\x7b".toList ++ ['}', '}'] := by decide
  have hB : ∀ Z : Bytes, "\"data\":\x7breason:".toList ++ Z
      = "\"data\":\x7b".toList ++ ('r' :: ("eason:".toList ++ Z)) := by
    intro Z
    rfl
  by_cases h1 : r1 = [] <;> by_cases h2 : r2 = []
  · rw [h1, h2]
  · rw [if_pos h1, if_neg h2, hA, hB] at h
    have := List.append_cancel_left h
    exact absurd (List.cons.inj this).1 (by decide)
  · rw [if_neg h1, if_pos h2, hA, hB] at h
    have := List.append_cancel_left h
    exact absurd (List.cons.inj this).1 (by decide)
  · rw [if_neg h1, if_neg h2] at h
    exact (ToJsonStr_split r1 r2 _ _ (List.append_cancel_left h)).1

/-- The `data` member opens with a double quote and the letter `d`. -/
theorem data_member_head (r : Bytes) :
    ∃ Z : Bytes, (if r = [] then "\"data\":\x7b\x7d\x7d".toList
        else "\"data\":\x7breason:".toList ++ (ToJsonStr r ++ ['}', '}'])) = '"' :: 'd' :: Z := by
  by_cases h : r = []
  · rw [if_pos h]
    exact ⟨_, rfl⟩
  · rw [if_neg h]
    exact ⟨_, rfl⟩

/-- Two records with the same encoding have the same code, message and reason. -/
theorem MarshalJSON_injective (c1 c2 : Int) (m1 m2 r1 r2 : Bytes)
    (h : (MarshalJSON (some (NewRerror c1 m1 r1))).1 = (MarshalJSON (some (NewRerror c2 m2 r2))).1) :
    c1 = c2 ∧ m1 = m2 ∧ r1 = r2 := by
  rw [MarshalJSON_members, MarshalJSON_members] at h
  have h1 := List.append_cancel_left (List.cons.inj h).2
  obtain ⟨hF, hT⟩ := split_at_comma _ _ _ _ (fun c hc => (FormatInt_plain c1 c hc).1)
    (fun c hc => (FormatInt_plain c2 c hc).1) h1
  have hc : c1 = c2 := FormatInt_injective c1 c2 hF
  have hK : ∀ (m Z : Bytes), ("\"error_msg\":".toList ++ ToJsonStr m ++ [',']) ++ Z
      = '"' :: 'e' :: ("rror_msg\":".toList ++ (ToJsonStr m ++ ',' :: Z)) := by
    intro m Z
    simp
  by_cases e1 : m1 = [] <;> by_cases e2 : m2 = []
  · rw [if_pos e1, if_pos e2, List.nil_append, List.nil_append] at hT
    exact ⟨hc, by rw [e1, e2], data_member_injective r1 r2 hT⟩
  · rw [if_pos e1, if_neg e2, List.nil_append, hK] at hT
    obtain ⟨Z, hZ⟩ := data_member_head r1
    rw [hZ] at hT
    exact absurd (List.cons.inj (List.cons.inj hT).2).1 (by decide)
  · rw [if_neg e1, if_pos e2, List.nil_append, hK] at hT
    obtain ⟨Z, hZ⟩ := data_member_head r2
    rw [hZ] at hT
    exact absurd (List.cons.inj (List.cons.inj hT).2).1 (by decide)
  · rw [if_neg e1, if_neg e2, hK, hK] at hT
    have h2 := List.append_cancel_left (List.cons.inj (List.cons.inj hT).2).2
    obtain ⟨hm, hrest⟩ := ToJsonStr_split m1 m2 _ _ h2
    exact ⟨hc, hm, data_member_injective r1 r2 (List.cons.inj hrest).2⟩

/-- C19: two records for which `MarshalJSON` returns the same bytes have the same
code, message and reason, so they are the same record. -/
theorem C19_MarshalJSON_injective (r1 r2 : Rerror)
    (h : (MarshalJSON (some r1)).1 = (MarshalJSON (some r2)).1) :
    r1.ErrorCode = r2.ErrorCode ∧ r1.ErrorMsg = r2.ErrorMsg ∧ r1.Data.Reason = r2.Data.Reason
    ∧ r1 = r2 := by
  obtain ⟨c1, m1, ⟨x1⟩⟩ := r1
  obtain ⟨c2, m2, ⟨x2⟩⟩ := r2
  obtain ⟨hc, hm, hr⟩ := MarshalJSON_injective c1 c2 m1 m2 x1 x2 h
  simp only at hc hm hr ⊢
  subst hc hm hr
  exact ⟨rfl, rfl, rfl, rfl⟩

/-- Witness of C19: a record against itself; and, by the same theorem, two records
that differ only in which of message and reason is empty have different
encodings. -/
theorem C19_MarshalJSON_injective_witness :
    ((NewRerror 7 "x".toList []).ErrorCode = (NewRerror 7 "x".toList []).ErrorCode
      ∧ (NewRerror 7 "x".toList []).ErrorMsg = (NewRerror 7 "x".toList []).ErrorMsg
      ∧ (NewRerror 7 "x".toList []).Data.Reason = (NewRerror 7 "x".toList []).Data.Reason
      ∧ NewRerror 7 "x".toList [] = NewRerror 7 "x".toList [])
    ∧ (MarshalJSON (some (NewRerror 7 "x".toList []))).1
        ≠ (MarshalJSON (some (NewRerror 7 [] "x".toList))).1 :=
  ⟨C19_MarshalJSON_injective (NewRerror 7 "x".toList []) (NewRerror 7 "x".toList []) rfl,
   fun h => absurd
     (C19_MarshalJSON_injective (NewRerror 7 "x".toList []) (NewRerror 7 [] "x".toList) h).2.2.2
     (by decide)⟩

end Tp
